import Mathlib

/-!
# noteGraph: extraction and assembly pipeline

A shallow embedding of `main.go` of the noteGraph program, and theorems about it.

Modelling conventions.

* Go strings are modelled by `String`.  The only byte-level operations the program
  performs are concatenation, comparison with the empty string and replacement of the
  one-byte newline, which agree on bytes and on code points for UTF-8 text.
* Go `int` is modelled by `Int`; the only arithmetic is `len` of a map.
* The document tree produced by the markdown parser is a rose tree `AstNode`; every node
  carries its kind (`*ast.Text`, `*ast.Heading`, `*wikilink.Node`, anything else) and its
  children in sibling order.  A text node carries the value of its segment, that is the
  bytes `n.Segment.Value(source)`.
* `ast.Walk` calls the callback on a node when entering it, walks the children in
  order, then calls the callback again when leaving.  The callback of `extractContent`
  returns `WalkContinue` always and does nothing when leaving, so the walk is a pre-order
  state-passing traversal.
* `os.ReadFile` followed by `parser.Parse` is a partial function `DocSource` from paths to
  trees (`none`: the read failed; the parser itself never fails).
* A Go map is an association list with distinct keys; `range` over a map enumerates the
  entries in an order chosen by the runtime, modelled by a `MapOrder`.
-/

namespace NoteGraph

/-! ## Data model (`main.go` lines 19-47) -/

structure Link where
  SourceId : String
  TargetId : String
deriving DecidableEq, Repr

structure Category where
  Name : String
  Id : Int
deriving DecidableEq, Repr

structure Node where
  Id : String
  Name : String
  Category : Int
  Value : String
  Links : List String
deriving DecidableEq, Repr

structure Graph where
  Nodes : List Node
  Links : List Link
  Categories : List Category
deriving DecidableEq, Repr

structure GraphString where
  Nodes : List String
  Links : List String
  Categories : List String
deriving DecidableEq, Repr

/-! ## The parsed document tree (goldmark `ast.Node`) -/

/-- The dynamic type of a tree node, as far as the type switch of `extractContent`
distinguishes it. -/
inductive NodeKind where
  | text (segment : String)
  | heading (level : Int)
  | wikilink (target : String)
  | other
deriving DecidableEq, Repr

/-- A document tree node: its kind and its children, first child first. -/
inductive AstNode where
  | mk (kind : NodeKind) (children : List AstNode)

/-- Kind of a node. -/
def AstNode.kind : AstNode → NodeKind
  | AstNode.mk k _ => k

/-- Children of a node (`FirstChild`, then `NextSibling` repeatedly). -/
def AstNode.children : AstNode → List AstNode
  | AstNode.mk _ cs => cs

/-! ## Library functions used by the program -/

/-- Go `strings.Join`: the elements separated by `sep`. -/
def Join : List String → String → String
  | [], _ => ""
  | [e], _ => e
  | e :: e2 :: es, sep => e ++ sep ++ Join (e2 :: es) sep

/-- Go `strings.ReplaceAll` for a one-character pattern `old`. -/
def ReplaceAll (s : String) (old : Char) (new : String) : String :=
  String.mk (s.data.flatMap (fun c => if c = old then new.data else [c]))

/-- The verb `%d` of `fmt.Sprintf` on an `int`: decimal digits, with a leading minus sign
for a negative number. -/
def formatInt (n : Int) : String :=
  toString n

/-- Go `os.IsPathSeparator` (Unix). -/
def isPathSeparator (c : Char) : Bool :=
  c = '/'

/-- The inner loop of the `..` case of `filepath.Clean`: `popped` is the byte at index
`out.w`, `rev` the bytes below `out.w`, last byte first.  Bytes are dropped until a
separator has been dropped or `out.w` reaches `dotdot`. -/
def cleanBacktrack (dotdot : Nat) : Char → List Char → List Char
  | _, [] => []
  | popped, c :: rev =>
    if (c :: rev).length > dotdot ∧ ¬ isPathSeparator popped = true then
      cleanBacktrack dotdot c rev
    else c :: rev

/-- The main loop of Go `filepath.Clean` (Unix): `path` is the unread part of the input,
`out` the output buffer, `dotdot` the index where `..` must stop.  Every iteration reads
at least one byte, so `fuel = path.length` iterations are enough. -/
def cleanLoop (rooted : Bool) : Nat → List Char → List Char → Nat → List Char
  | 0, _, out, _ => out
  | fuel + 1, path, out, dotdot =>
    match path with
    | [] => out
    | c :: rest =>
      if isPathSeparator c = true then
        -- empty path element
        cleanLoop rooted fuel rest out dotdot
      else if c = '.' ∧ (rest = [] ∨ (rest.head?.map isPathSeparator) = some true) then
        -- . element
        cleanLoop rooted fuel rest out dotdot
      else if c = '.' ∧ rest.head? = some '.' ∧
          (rest.tail = [] ∨ (rest.tail.head?.map isPathSeparator) = some true) then
        -- .. element: remove to last separator
        if out.length > dotdot then
          match out.reverse with
          | [] => cleanLoop rooted fuel rest.tail out dotdot
          | popped :: rev =>
            cleanLoop rooted fuel rest.tail (cleanBacktrack dotdot popped rev).reverse dotdot
        else if rooted = false then
          let out1 := (if out.length > 0 then out ++ ['/'] else out) ++ ['.', '.']
          cleanLoop rooted fuel rest.tail out1 out1.length
        else
          cleanLoop rooted fuel rest.tail out dotdot
      else
        -- real path element: add slash if needed, then copy the element
        let out1 :=
          if (rooted = true ∧ out.length ≠ 1) ∨ (rooted = false ∧ out.length ≠ 0) then
            out ++ ['/']
          else out
        cleanLoop rooted fuel ((c :: rest).dropWhile (fun x => !isPathSeparator x))
          (out1 ++ (c :: rest).takeWhile (fun x => !isPathSeparator x)) dotdot

/-- Go `filepath.Clean` (Unix, no volume name). -/
def Clean (path : List Char) : List Char :=
  match path with
  | [] => ['.']
  | c :: _ =>
    let rooted := isPathSeparator c
    let out :=
      if rooted = true then cleanLoop rooted path.length path.tail ['/'] 1
      else cleanLoop rooted path.length path [] 0
    if out.length = 0 then ['.'] else out

/-- Go `filepath.Dir` (Unix): everything up to and including the last separator, cleaned. -/
def Dir (path : String) : String :=
  String.mk (Clean (path.data.reverse.dropWhile (fun c => !isPathSeparator c)).reverse)

/-- The entries of a Go `map[string]int`, keys pairwise distinct. -/
abbrev CategoryMap := List (String × Int)

/-- Map read `m[k]` with the `exists` flag: `none` when the key is absent. -/
def CategoryMap.get? (m : CategoryMap) (k : String) : Option Int :=
  (m.find? (fun e => e.1 = k)).map Prod.snd

/-- Map write `m[k] = v`: overwrite the entry of `k`, or add one. -/
def CategoryMap.set (m : CategoryMap) (k : String) (v : Int) : CategoryMap :=
  if (m.get? k).isSome then m.map (fun e => if e.1 = k then (k, v) else e)
  else m ++ [(k, v)]

/-- The order in which `range` enumerates the entries of a map: the runtime may choose any
rearrangement of the entries. -/
structure MapOrder where
  enum : List (String × Int) → List (String × Int)
  perm : ∀ l, (enum l).Perm l

/-- Go `sort.Slice` with the comparison `less`.  The library sort is not stable; an
insertion sort stands for it, and the order among entries that `less` does not separate is
left to the enumeration order of the input. -/
def sortSlice {α : Type} (less : α → α → Bool) (l : List α) : List α :=
  l.insertionSort (fun a b => less b a = false)

/-- What `os.ReadFile` and the markdown parser give for a path: the parsed tree, or `none`
when the file cannot be read. -/
abbrev DocSource := String → Option AstNode

/-! ## Content extractor (`main.go` lines 152-187) -/

/-- The variables the walker callback of `extractContent` updates. -/
structure WalkState where
  header : String
  valueLines : List String
  links : List String
deriving DecidableEq, Repr

/-- The loop of lines 168-173: the segments of the children that are text nodes,
concatenated in child order. -/
def headerText (children : List AstNode) : String :=
  children.foldl
    (fun acc c =>
      match c with
      | AstNode.mk (NodeKind.text segment) _ => acc ++ segment
      | _ => acc)
    ""

/-- The walker callback on entering a node (lines 162-179). -/
def visit (st : WalkState) : AstNode → WalkState
  | AstNode.mk (NodeKind.text segment) _ =>
    { st with valueLines := st.valueLines ++ [segment] }
  | AstNode.mk (NodeKind.heading level) cs =>
    if level = 1 ∧ st.header = "" then { st with header := headerText cs } else st
  | AstNode.mk (NodeKind.wikilink target) _ =>
    { st with links := st.links ++ [target] }
  | AstNode.mk NodeKind.other _ => st

mutual
/-- The traversal `ast.Walk` with the callback `visit`. -/
def walk (st : WalkState) : AstNode → WalkState
  | AstNode.mk k cs => walkChildren (visit st (AstNode.mk k cs)) cs
/-- The walk of a list of siblings. -/
def walkChildren (st : WalkState) : List AstNode → WalkState
  | [] => st
  | c :: cs => walkChildren (walk st c) cs
end

/-- The function `extractContent`: title, body and raw link targets of a document. -/
def extractContent (doc : AstNode) : Node :=
  let st := walk { header := "", valueLines := [], links := [] } doc
  { Id := "", Name := st.header, Category := 0, Value := Join st.valueLines "\n",
    Links := st.links }

/-! ## Graph assembler (`main.go` lines 92-150) -/

/-- The function `newNode`: the node of a document and the updated category map, or
`none` (the `false` flag) and the map unchanged when the file cannot be read. -/
def newNode (src : DocSource) (path : String) (categoryMap : CategoryMap) :
    Option Node × CategoryMap :=
  match src path with
  | none => (none, categoryMap)
  | some doc =>
    let node := { extractContent doc with Id := path }
    let category := Dir path
    let categoryMap :=
      if (categoryMap.get? category).isSome then categoryMap
      else categoryMap.set category categoryMap.length
    (some { node with Category := (categoryMap.get? category).getD 0 }, categoryMap)

/-- The comparison given to `sort.Slice` in `sortCategories`. -/
def categoryLess (a b : Category) : Bool :=
  decide (a.Id < b.Id)

/-- The function `sortCategories`: the entries of the map as categories, sorted by id. -/
def sortCategories (order : MapOrder) (categoryMap : CategoryMap) : List Category :=
  let categories :=
    (order.enum categoryMap).foldl (fun cats e => cats ++ [{ Name := e.1, Id := e.2 }]) []
  sortSlice categoryLess categories

/-- The local variables of the loop of `parseNotes`. -/
structure ParseState where
  nodes : List Node
  links : List Link
  categoryMap : CategoryMap

/-- One iteration of the loop of `parseNotes` (lines 97-107). -/
def parseStep (src : DocSource) (st : ParseState) (path : String) : ParseState :=
  match newNode src path st.categoryMap with
  | (none, categoryMap) => { st with categoryMap := categoryMap }
  | (some node, categoryMap) =>
    { nodes := st.nodes ++ [node],
      links := node.Links.foldl
        (fun links link => links ++ [{ SourceId := node.Id, TargetId := link ++ ".md" }])
        st.links,
      categoryMap := categoryMap }

/-- The function `parseNotes`. -/
def parseNotes (order : MapOrder) (src : DocSource) (paths : List String) : Graph :=
  let st := paths.foldl (parseStep src) { nodes := [], links := [], categoryMap := [] }
  { Nodes := st.nodes, Links := st.links, Categories := sortCategories order st.categoryMap }

/-! ## Graph serializer (`main.go` lines 189-222) -/

/-- The string `nodeStr` built by `fmt.Sprintf` in the loop of `nodesToStrings`. -/
def nodeStr (node : Node) : String :=
  let sanitized := ReplaceAll node.Value '\n' "\\n"
  "\x7b id: \"" ++ node.Id ++ "\", name: \"" ++ node.Name ++ "\", category: "
    ++ formatInt node.Category ++ ", value: \"" ++ sanitized ++ "\" \x7d"

/-- The function `nodesToStrings`. -/
def nodesToStrings (nodes : List Node) : List String :=
  nodes.foldl (fun result node => result ++ [nodeStr node]) []

/-- The function `linksToStrings`. -/
def linksToStrings (links : List Link) : List String :=
  links.foldl
    (fun result link =>
      result ++ ["\x7b source: \"" ++ link.SourceId ++ "\", target: \"" ++ link.TargetId
        ++ "\" \x7d"])
    []

/-- The function `categoriesToStrings`. -/
def categoriesToStrings (categories : List Category) : List String :=
  categories.foldl
    (fun result category => result ++ ["\x7b name: \"" ++ category.Name ++ "\" \x7d"])
    []

/-- The method `toGraphStrings`. -/
def Graph.toGraphStrings (g : Graph) : GraphString :=
  { Nodes := nodesToStrings g.Nodes, Links := linksToStrings g.Links,
    Categories := categoriesToStrings g.Categories }

/-! ## Specification-side definitions

These follow the words of the specification, not the code; the theorems compare them with
the functions above. -/

mutual
/-- All nodes of a tree in depth-first pre-order: the node, then the nodes of its
children from the first child to the last. -/
def preorder : AstNode → List AstNode
  | AstNode.mk k cs => AstNode.mk k cs :: preorderList cs
/-- All nodes of a list of sibling trees in depth-first pre-order. -/
def preorderList : List AstNode → List AstNode
  | [] => []
  | c :: cs => preorder c ++ preorderList cs
end

/-- The segment of a text-run node, `none` for every other node. -/
def textSegment? : AstNode → Option String
  | AstNode.mk (NodeKind.text segment) _ => some segment
  | _ => none

/-- The raw target of a link-reference node, `none` for every other node. -/
def wikilinkTarget? : AstNode → Option String
  | AstNode.mk (NodeKind.wikilink target) _ => some target
  | _ => none

/-- Whether a node is a heading of rank 1. -/
def isRank1Heading : AstNode → Bool
  | AstNode.mk (NodeKind.heading level) _ => decide (level = 1)
  | _ => false

/-- The text of a heading: the segments of its direct text-run children, concatenated in
child order. -/
def directText (n : AstNode) : String :=
  String.join (n.children.filterMap textSegment?)

/-- The text runs of a document in document order. -/
def textRuns (doc : AstNode) : List String :=
  (preorder doc).filterMap textSegment?

/-- The raw targets of the link references of a document in document order. -/
def wikilinkTargets (doc : AstNode) : List String :=
  (preorder doc).filterMap wikilinkTarget?

/-- The texts of the rank-1 headings of a document in document order. -/
def rank1Texts (doc : AstNode) : List String :=
  ((preorder doc).filter isRank1Heading).map directText

/-- The first non-empty string of a list, the empty string when there is none. -/
def firstNonEmpty : List String → String
  | [] => ""
  | t :: ts => if t = "" then firstNonEmpty ts else t

/-- A document whose first rank-1 heading has no direct text run (its text is inside an
emphasis node) and whose second rank-1 heading reads B: the tree of the markdown source
`# *A*`, blank line, `# B`. -/
def docEmptyFirstHeading : AstNode :=
  AstNode.mk NodeKind.other
    [AstNode.mk (NodeKind.heading 1)
      [AstNode.mk NodeKind.other [AstNode.mk (NodeKind.text "A") []]],
     AstNode.mk (NodeKind.heading 1) [AstNode.mk (NodeKind.text "B") []]]

/-- The document `docEmptyFirstHeading` with the content of its second rank-1 heading
replaced by C. -/
def docEmptyFirstHeadingAlt : AstNode :=
  AstNode.mk NodeKind.other
    [AstNode.mk (NodeKind.heading 1)
      [AstNode.mk NodeKind.other [AstNode.mk (NodeKind.text "A") []]],
     AstNode.mk (NodeKind.heading 1) [AstNode.mk (NodeKind.text "C") []]]

/-- A document with two rank-1 headings, Intro and Later, a paragraph and two link
references to the same target. -/
def docTwoHeadings : AstNode :=
  AstNode.mk NodeKind.other
    [AstNode.mk (NodeKind.heading 1) [AstNode.mk (NodeKind.text "Intro") []],
     AstNode.mk NodeKind.other
      [AstNode.mk (NodeKind.text "see ") [],
       AstNode.mk (NodeKind.wikilink "two") [AstNode.mk (NodeKind.text "two") []],
       AstNode.mk (NodeKind.wikilink "two") [AstNode.mk (NodeKind.text "two") []]],
     AstNode.mk (NodeKind.heading 1) [AstNode.mk (NodeKind.text "Later") []]]

/-- The document `docTwoHeadings` with the content of its second rank-1 heading
replaced. -/
def docTwoHeadingsAlt : AstNode :=
  AstNode.mk NodeKind.other
    [AstNode.mk (NodeKind.heading 1) [AstNode.mk (NodeKind.text "Intro") []],
     AstNode.mk NodeKind.other
      [AstNode.mk (NodeKind.text "see ") [],
       AstNode.mk (NodeKind.wikilink "two") [AstNode.mk (NodeKind.text "two") []],
       AstNode.mk (NodeKind.wikilink "two") [AstNode.mk (NodeKind.text "two") []]],
     AstNode.mk (NodeKind.heading 1) [AstNode.mk (NodeKind.text "Changed") []]]

/-- A document without any text run: a single empty heading of rank 2. -/
def docNoText : AstNode :=
  AstNode.mk NodeKind.other [AstNode.mk (NodeKind.heading 2) []]

/-- A node whose title contains double quotes. -/
def quotedNode : Node :=
  { Id := "n.md", Name := "say \"hi\"", Category := 0, Value := "", Links := [] }

/-- The distinct elements of a list of grouping keys in the order of their first
appearance. -/
def firstSeen : List String → List String
  | [] => []
  | k :: ks => k :: (firstSeen ks).filter (fun x => x ≠ k)

/-- The keys seen so far, followed by the new keys of `keys` in the order of their first
appearance. -/
def firstSeenFrom (seen : List String) : List String → List String
  | [] => seen
  | k :: ks => if k ∈ seen then firstSeenFrom seen ks else firstSeenFrom (seen ++ [k]) ks

/-- The map that gives the keys of a list the consecutive ids `n`, `n + 1`, ... -/
def idxMapFrom (n : Nat) : List String → CategoryMap
  | [] => []
  | k :: ks => (k, (n : Int)) :: idxMapFrom (n + 1) ks

/-- The grouping keys of the documents of `paths` that can be read, in input order. -/
def keysOf (src : DocSource) (paths : List String) : List String :=
  (paths.filter (fun p => (src p).isSome)).map Dir

/-- The node of a readable document once the category ids are known: the extracted
content with the path as id and the position of its grouping key among `keys` as
category. -/
def nodeOf (src : DocSource) (keys : List String) (path : String) : Option Node :=
  (src path).map (fun doc =>
    { extractContent doc with Id := path, Category := (keys.indexOf (Dir path) : Nat) })

/-- The links of a node: one per raw target, in order, with the extension added. -/
def linksOf (node : Node) : List Link :=
  node.Links.map (fun t => { SourceId := node.Id, TargetId := t ++ ".md" })

/-- The category of a map entry, as built in the loop of `sortCategories`. -/
def toCategory (e : String × Int) : Category :=
  { Name := e.1, Id := e.2 }

/-- The graph the specification describes for a list of paths: one node per readable
document in input order, with the position of its grouping key in first-appearance
order as category; the links of the nodes in order; one category per distinct grouping
key in first-appearance order, numbered from 0. -/
def graphOf (src : DocSource) (paths : List String) : Graph :=
  let keys := firstSeen (keysOf src paths)
  { Nodes := paths.filterMap (nodeOf src keys),
    Links := (paths.filterMap (nodeOf src keys)).flatMap linksOf,
    Categories := (idxMapFrom 0 keys).map toCategory }

/-- The enumeration order that leaves the entries as they were inserted. -/
def insertionOrder : MapOrder :=
  { enum := fun l => l, perm := fun l => List.Perm.refl l }

/-- The enumeration order that gives the entries last inserted first. -/
def reverseOrder : MapOrder :=
  { enum := fun l => l.reverse, perm := fun l => List.reverse_perm l }

/-- A document source in which every path can be read and holds the same document. -/
def srcAll : DocSource :=
  fun _ => some docNoText

/-- The document of `a/one.md` in the end-to-end scenario: the tree of the markdown
source `# One`, blank line, `[[two]]`. -/
def docOne : AstNode :=
  AstNode.mk NodeKind.other
    [AstNode.mk (NodeKind.heading 1) [AstNode.mk (NodeKind.text "One") []],
     AstNode.mk NodeKind.other
      [AstNode.mk (NodeKind.wikilink "two") [AstNode.mk (NodeKind.text "two") []]]]

/-- The document of `a/two.md` in the end-to-end scenario: the tree of `# Two`. -/
def docTwo : AstNode :=
  AstNode.mk NodeKind.other
    [AstNode.mk (NodeKind.heading 1) [AstNode.mk (NodeKind.text "Two") []]]

/-- The document source of the end-to-end scenario; every other path cannot be read. -/
def srcScenario : DocSource :=
  fun p => if p = "a/one.md" then some docOne else if p = "a/two.md" then some docTwo else none

/-- A document with one link reference whose raw target is `Foo Bar`. -/
def docFooBar : AstNode :=
  AstNode.mk NodeKind.other
    [AstNode.mk NodeKind.other
      [AstNode.mk (NodeKind.wikilink "Foo Bar") [AstNode.mk (NodeKind.text "Foo Bar") []]]]

/-- A document source with the single readable path `n/foo.md`. -/
def srcFooBar : DocSource :=
  fun p => if p = "n/foo.md" then some docFooBar else none

/-- The segment of a text-run kind, `none` for every other kind. -/
def kindSegment? : NodeKind → Option String
  | NodeKind.text segment => some segment
  | _ => none

/-- A document whose only rank-1 heading has the children A (text run), an emphasis node
around the text run B, and C (text run): the tree of the markdown source `# A*B*C`. -/
def docNestedHeading : AstNode :=
  AstNode.mk NodeKind.other
    [AstNode.mk (NodeKind.heading 1)
      [AstNode.mk (NodeKind.text "A") [],
       AstNode.mk NodeKind.other [AstNode.mk (NodeKind.text "B") []],
       AstNode.mk (NodeKind.text "C") []],
     AstNode.mk NodeKind.other [AstNode.mk (NodeKind.text "body") []]]

/-- The rank-1 heading of `docNestedHeading`. -/
def nestedHeading : AstNode :=
  AstNode.mk (NodeKind.heading 1)
    [AstNode.mk (NodeKind.text "A") [],
     AstNode.mk NodeKind.other [AstNode.mk (NodeKind.text "B") []],
     AstNode.mk (NodeKind.text "C") []]

/-- A document with headings of rank 2 and 3 only, and a paragraph. -/
def docNoRank1 : AstNode :=
  AstNode.mk NodeKind.other
    [AstNode.mk (NodeKind.heading 2) [AstNode.mk (NodeKind.text "Sub") []],
     AstNode.mk NodeKind.other [AstNode.mk (NodeKind.text "para") []],
     AstNode.mk (NodeKind.heading 3) [AstNode.mk (NodeKind.text "Deeper") []]]

/-- A node whose body holds a line break between a and b. -/
def newlineNode : Node :=
  { Id := "n.md", Name := "T", Category := 0, Value := "a\nb", Links := [] }

/-- A node whose body holds a backslash and the letter n between a and b. -/
def backslashNode : Node :=
  { Id := "n.md", Name := "T", Category := 0, Value := "a\\nb", Links := [] }

/-- A node whose body holds the two lines `l1` and `l2`; it has one raw link target. -/
def twoLineNode : Node :=
  { Id := "a/x.md", Name := "T", Category := 3, Value := "l1\nl2", Links := ["y"] }

/-- The node `twoLineNode` with the body `a b` on one line. -/
def oneLineNode : Node :=
  { Id := "a/x.md", Name := "T", Category := 3, Value := "a b", Links := ["y"] }

/-- The decimal digits. -/
def decimalDigits : List Char :=
  ['0', '1', '2', '3', '4', '5', '6', '7', '8', '9']

/-- The node `twoLineNode` without raw link targets. -/
def twoLineNodeNoLinks : Node :=
  { Id := "a/x.md", Name := "T", Category := 3, Value := "l1\nl2", Links := [] }

/-- A category map with the two keys `a` and `b`. -/
def mapAB : CategoryMap :=
  [("a", 0), ("b", 1)]

/-- Whether a text holds the two-character sequence backslash, letter n. -/
def hasBackslashN : List Char → Bool
  | [] => false
  | c :: cs => (c == '\\' && cs.head? == some 'n') || hasBackslashN cs

/-- A node whose body holds backslashes, none of them followed by the letter n; it has
one raw link target. -/
def backslashBodyNode : Node :=
  { Id := "a/x.md", Name := "T", Category := 3, Value := "C:\\dir\\file\nend\\", Links := ["y"] }

/-- The node `backslashBodyNode` without raw link targets. -/
def backslashBodyNodeNoLinks : Node :=
  { Id := "a/x.md", Name := "T", Category := 3, Value := "C:\\dir\\file\nend\\", Links := [] }

/-! ## Library models: fuel of the `filepath.Clean` loop -/

theorem length_dropWhile_le_length {α : Type} (p : α → Bool) (l : List α) :
    (l.dropWhile p).length ≤ l.length := by
  induction l with
  | nil => simp
  | cons a l ih =>
    rw [List.dropWhile_cons]
    split
    · exact Nat.le_succ_of_le ih
    · exact Nat.le_refl _

/-- One more iteration than the length of the unread input changes nothing: the loop of
`filepath.Clean` has read all of its input after `path.length` iterations. -/
theorem cleanLoop_fuel_succ (rooted : Bool) (fuel : Nat) :
    ∀ (path out : List Char) (dotdot : Nat), path.length ≤ fuel →
      cleanLoop rooted (fuel + 1) path out dotdot = cleanLoop rooted fuel path out dotdot := by
  induction fuel with
  | zero =>
    intro path out dotdot h
    have : path = [] := List.eq_nil_of_length_eq_zero (Nat.le_zero.mp h)
    subst this
    simp [cleanLoop]
  | succ fuel ih =>
    intro path out dotdot h
    cases path with
    | nil => simp [cleanLoop]
    | cons c rest =>
      have hrest : rest.length ≤ fuel := by simpa using h
      have htail : rest.tail.length ≤ fuel := by
        rw [List.length_tail]; omega
      rw [cleanLoop]
      conv_rhs => rw [cleanLoop]
      simp only
      split
      · exact ih _ _ _ hrest
      · split
        · exact ih _ _ _ hrest
        · split
          · split
            · split
              · exact ih _ _ _ htail
              · exact ih _ _ _ htail
            · split
              · exact ih _ _ _ htail
              · exact ih _ _ _ htail
          · rename_i hsep _ _
            apply ih
            have hc : (!isPathSeparator c) = true := by simpa using hsep
            rw [List.dropWhile_cons, if_pos hc]
            exact (length_dropWhile_le_length _ rest).trans hrest

/-- Any fuel that is at least the length of the unread input gives the result of the
loop of `filepath.Clean`. -/
theorem cleanLoop_fuel (rooted : Bool) (path out : List Char) (dotdot : Nat) (fuel : Nat)
    (h : path.length ≤ fuel) :
    cleanLoop rooted fuel path out dotdot = cleanLoop rooted path.length path out dotdot := by
  induction fuel with
  | zero =>
    have : path.length = 0 := Nat.le_zero.mp h
    rw [this]
  | succ fuel ih =>
    by_cases hl : path.length ≤ fuel
    · rw [cleanLoop_fuel_succ rooted fuel path out dotdot hl]
      exact ih hl
    · have : path.length = fuel + 1 := by omega
      rw [this]

/-! ## The traversal -/

mutual
/-- The walk of a tree is the left fold of the callback over the nodes in pre-order. -/
theorem walk_eq_foldl (st : WalkState) :
    (n : AstNode) → walk st n = (preorder n).foldl visit st
  | AstNode.mk k cs => by
    rw [walk, preorder, List.foldl_cons]
    exact walkChildren_eq_foldl _ cs
/-- The walk of a list of siblings is the left fold of the callback over their nodes. -/
theorem walkChildren_eq_foldl (st : WalkState) :
    (cs : List AstNode) → walkChildren st cs = (preorderList cs).foldl visit st
  | [] => by simp [walkChildren, preorderList]
  | c :: cs => by
    rw [walkChildren, preorderList, List.foldl_append, walk_eq_foldl st c]
    exact walkChildren_eq_foldl _ cs
end

theorem foldl_append_string (acc : String) (l : List String) :
    l.foldl (fun r s => r ++ s) acc = acc ++ String.join l := by
  induction l generalizing acc with
  | nil => simp [String.join]
  | cons s l ih =>
    have h := ih (acc ++ s)
    have h2 := ih ("" ++ s)
    simp only [String.join, List.foldl_cons] at *
    rw [h, h2]; simp [String.append_assoc]

theorem string_join_cons (s : String) (l : List String) :
    String.join (s :: l) = s ++ String.join l := by
  have h := foldl_append_string ("" ++ s) l
  simp only [String.join, List.foldl_cons] at *
  rw [h]; simp

theorem headerText_eq (cs : List AstNode) :
    headerText cs = String.join (cs.filterMap textSegment?) := by
  have key : ∀ (acc : String) (l : List AstNode),
      l.foldl (fun acc c => match c with
        | AstNode.mk (NodeKind.text segment) _ => acc ++ segment
        | _ => acc) acc = acc ++ String.join (l.filterMap textSegment?) := by
    intro acc l
    induction l generalizing acc with
    | nil => simp [String.join]
    | cons c l ih =>
      rw [List.foldl_cons, ih]
      rcases c with ⟨k, ch⟩
      cases k <;> simp [textSegment?, string_join_cons, String.append_assoc]
  have h := key "" cs
  simpa [headerText] using h

theorem visit_valueLines (st : WalkState) (n : AstNode) :
    (visit st n).valueLines = st.valueLines ++ (textSegment? n).toList := by
  rcases n with ⟨k, cs⟩
  cases k <;> simp [visit, textSegment?]
  split <;> rfl

theorem visit_links (st : WalkState) (n : AstNode) :
    (visit st n).links = st.links ++ (wikilinkTarget? n).toList := by
  rcases n with ⟨k, cs⟩
  cases k <;> simp [visit, wikilinkTarget?]
  split <;> rfl

theorem visit_header (st : WalkState) (n : AstNode) :
    (visit st n).header =
      if st.header = "" then (if isRank1Heading n = true then directText n else "")
      else st.header := by
  rcases n with ⟨k, cs⟩
  cases k <;> simp [visit, isRank1Heading, directText, AstNode.children]
  · split <;> simp_all
  · rename_i level
    by_cases h1 : level = 1 <;> by_cases h2 : st.header = "" <;>
      simp [h1, h2, headerText_eq]
  · split <;> simp_all
  · split <;> simp_all

theorem foldl_visit_valueLines (l : List AstNode) (st : WalkState) :
    (l.foldl visit st).valueLines = st.valueLines ++ l.filterMap textSegment? := by
  induction l generalizing st with
  | nil => simp
  | cons n l ih =>
    rw [List.foldl_cons, ih, visit_valueLines]
    cases h : textSegment? n <;> simp [List.filterMap_cons, h]

theorem foldl_visit_links (l : List AstNode) (st : WalkState) :
    (l.foldl visit st).links = st.links ++ l.filterMap wikilinkTarget? := by
  induction l generalizing st with
  | nil => simp
  | cons n l ih =>
    rw [List.foldl_cons, ih, visit_links]
    cases h : wikilinkTarget? n <;> simp [List.filterMap_cons, h]

theorem foldl_visit_header (l : List AstNode) (st : WalkState) :
    (l.foldl visit st).header =
      if st.header = "" then firstNonEmpty ((l.filter isRank1Heading).map directText)
      else st.header := by
  induction l generalizing st with
  | nil => by_cases h : st.header = "" <;> simp [firstNonEmpty, h]
  | cons n l ih =>
    rw [List.foldl_cons, ih, visit_header]
    by_cases h : st.header = ""
    · by_cases hr : isRank1Heading n = true
      · by_cases hd : directText n = "" <;> simp [h, hr, hd, firstNonEmpty]
      · simp [h, hr]
    · simp [h]

theorem extractContent_name (doc : AstNode) :
    (extractContent doc).Name = firstNonEmpty (rank1Texts doc) := by
  simp [extractContent, walk_eq_foldl, foldl_visit_header, rank1Texts]

theorem extractContent_links (doc : AstNode) :
    (extractContent doc).Links = wikilinkTargets doc := by
  simp [extractContent, walk_eq_foldl, foldl_visit_links, wikilinkTargets]

theorem Join_eq_intercalate (l : List String) (sep : String) :
    Join l sep = sep.intercalate l := by
  have go : ∀ (l : List String) (acc : String),
      String.intercalate.go acc sep l = acc ++ String.join (l.map (fun s => sep ++ s)) := by
    intro l
    induction l with
    | nil => intro acc; simp [String.intercalate.go, String.join]
    | cons s l ih =>
      intro acc
      simp [String.intercalate.go, ih, string_join_cons, String.append_assoc]
  have key : ∀ (l : List String) (e : String),
      Join (e :: l) sep = e ++ String.join (l.map (fun s => sep ++ s)) := by
    intro l
    induction l with
    | nil => intro e; simp [Join, String.join]
    | cons s l ih =>
      intro e
      rw [Join, ih]
      simp [string_join_cons, String.append_assoc]
  cases l with
  | nil => simp [Join, String.intercalate]
  | cons e l => rw [key, String.intercalate, go]

theorem firstNonEmpty_append_cons (pre : List String) (t : String) (post : List String)
    (hpre : ∀ x ∈ pre, x = "") (ht : t ≠ "") : firstNonEmpty (pre ++ t :: post) = t := by
  induction pre with
  | nil => simp [firstNonEmpty, ht]
  | cons p pre ih =>
    have hp : p = "" := hpre p (by simp)
    simp only [List.cons_append, firstNonEmpty, hp, if_true]
    exact ih (fun x hx => hpre x (by simp [hx]))

/-! ## Content extractor: title, body, links -/

/-- C1 (counterexample): in the tree of `# *A*` followed by `# B` the first rank-1
heading has the empty text, yet the Name is B, the text of the second rank-1 heading;
replacing the content of that second heading by C changes the Name to C. -/
theorem extractContent_name_skips_empty_heading :
    rank1Texts docEmptyFirstHeading = ["", "B"] ∧
    (extractContent docEmptyFirstHeading).Name = "B" ∧
    (extractContent docEmptyFirstHeading).Name ≠ (rank1Texts docEmptyFirstHeading).headD "" ∧
    rank1Texts docEmptyFirstHeadingAlt = ["", "C"] ∧
    (extractContent docEmptyFirstHeadingAlt).Name ≠
      (extractContent docEmptyFirstHeading).Name := by
  decide

/-- C1 (amended): the Name is the text of the first rank-1 heading in traversal order
whose text is non-empty (rank-1 headings with an empty text before it are passed over),
and a document that differs only in the rank-1 headings after that one has the same
Name. -/
theorem extractContent_name_first_nonempty_rank1 (doc doc' : AstNode)
    (pre : List String) (t : String) (post post' : List String)
    (hdoc : rank1Texts doc = pre ++ t :: post) (hpre : ∀ x ∈ pre, x = "") (ht : t ≠ "")
    (hdoc' : rank1Texts doc' = pre ++ t :: post') :
    (extractContent doc).Name = t ∧
      (extractContent doc').Name = (extractContent doc).Name := by
  have h1 : (extractContent doc).Name = t := by
    rw [extractContent_name, hdoc, firstNonEmpty_append_cons pre t post hpre ht]
  have h2 : (extractContent doc').Name = t := by
    rw [extractContent_name, hdoc', firstNonEmpty_append_cons pre t post' hpre ht]
  exact ⟨h1, h2.trans h1.symm⟩

/-- C1 (witness): two rank-1 headings, Intro and Later; the Name is Intro, also after
the second heading is changed. -/
theorem extractContent_name_first_nonempty_rank1_witness :
    (extractContent docTwoHeadings).Name = "Intro" ∧
      (extractContent docTwoHeadingsAlt).Name = (extractContent docTwoHeadings).Name :=
  extractContent_name_first_nonempty_rank1 docTwoHeadings docTwoHeadingsAlt
    [] "Intro" ["Later"] ["Changed"] (by decide) (by simp) (by decide) (by decide)

/-- C4: the Value is the list of the segments of all text-run nodes, in depth-first
pre-order, joined with one newline between consecutive segments; it is empty when the
tree has no text-run node. -/
theorem extractContent_value_joined_text_runs (doc : AstNode) :
    (extractContent doc).Value = "\n".intercalate (textRuns doc) ∧
      (textRuns doc = [] → (extractContent doc).Value = "") := by
  have h : (extractContent doc).Value = "\n".intercalate (textRuns doc) := by
    simp [extractContent, walk_eq_foldl, foldl_visit_valueLines, textRuns,
      Join_eq_intercalate]
  refine ⟨h, fun he => ?_⟩
  rw [h, he]; rfl

/-- C4 (witness): a document without text run has the empty Value. -/
theorem extractContent_value_joined_text_runs_witness :
    textRuns docNoText = [] ∧ (extractContent docNoText).Value = "" :=
  ⟨by decide, (extractContent_value_joined_text_runs docNoText).2 (by decide)⟩

theorem length_filterMap_eq_countP {α β : Type} (f : α → Option β) (l : List α) :
    (l.filterMap f).length = l.countP (fun a => (f a).isSome) := by
  induction l with
  | nil => simp
  | cons a l ih =>
    cases h : f a <;> simp [List.filterMap_cons, List.countP_cons, h, ih]

/-- C10: the Links are the raw targets of all link-reference nodes, verbatim, in
depth-first pre-order, duplicates kept: there are as many Links as link-reference
nodes. -/
theorem extractContent_links_preorder (doc : AstNode) :
    (extractContent doc).Links = (preorder doc).filterMap wikilinkTarget? ∧
      (extractContent doc).Links.length =
        (preorder doc).countP (fun n => (wikilinkTarget? n).isSome) := by
  have h := extractContent_links doc
  rw [wikilinkTargets] at h
  exact ⟨h, by rw [h, length_filterMap_eq_countP]⟩

/-! ## Serializer -/

theorem foldl_append_singleton {α β : Type} (f : α → β) (l : List α) (init : List β) :
    l.foldl (fun acc a => acc ++ [f a]) init = init ++ l.map f := by
  induction l generalizing init with
  | nil => simp
  | cons a l ih => simp [ih]

theorem nodesToStrings_eq_map (nodes : List Node) :
    nodesToStrings nodes = nodes.map nodeStr := by
  simp [nodesToStrings, foldl_append_singleton]

/-- C2 (counterexample): a Name with double quotes is written into the fragment as it
is; the fragment has a quote in the middle of the name literal and no backslash at
all. -/
theorem nodesToStrings_raw_quote :
    nodesToStrings [quotedNode] =
      ["\x7b id: \"n.md\", name: \"say \"hi\"\", category: 0, value: \"\" \x7d"] ∧
    '"' ∈ quotedNode.Name.data ∧
    ∀ frag ∈ nodesToStrings [quotedNode], '\\' ∉ frag.data := by
  decide

/-- C2 (amended): the fragment of a node holds the Name verbatim between the opening
`name: "` and the closing quote before the category field; no character of the Name,
a double quote included, is escaped. -/
theorem nodesToStrings_name_verbatim (nodes : List Node) :
    nodesToStrings nodes = nodes.map (fun node =>
      ("\x7b id: \"" ++ node.Id ++ "\", name: \"") ++ node.Name ++
      ("\", category: " ++ formatInt node.Category ++ ", value: \"" ++
        ReplaceAll node.Value '\n' "\\n" ++ "\" \x7d")) := by
  rw [nodesToStrings_eq_map]
  apply List.map_congr_left
  intro node _
  simp [nodeStr, String.append_assoc]

/-! ## Category map -/

theorem idxMapFrom_length (n : Nat) (ks : List String) : (idxMapFrom n ks).length = ks.length := by
  induction ks generalizing n with
  | nil => rfl
  | cons k ks ih => simp [idxMapFrom, ih]

theorem idxMapFrom_append (n : Nat) (ks : List String) (k : String) :
    idxMapFrom n (ks ++ [k]) = idxMapFrom n ks ++ [(k, ((n + ks.length : Nat) : Int))] := by
  induction ks generalizing n with
  | nil => simp [idxMapFrom]
  | cons a ks ih =>
    have h := ih (n + 1)
    have e : n + 1 + ks.length = n + (ks.length + 1) := by omega
    rw [e] at h
    show (a, (n : Int)) :: idxMapFrom (n + 1) (ks ++ [k]) = _
    rw [h]; rfl

theorem idxMapFrom_map_fst (n : Nat) (ks : List String) :
    (idxMapFrom n ks).map Prod.fst = ks := by
  induction ks generalizing n with
  | nil => rfl
  | cons k ks ih => simp [idxMapFrom, ih]

theorem idxMapFrom_get? (n : Nat) (ks : List String) (k : String) :
    CategoryMap.get? (idxMapFrom n ks) k =
      if k ∈ ks then some ((n + ks.indexOf k : Nat) : Int) else none := by
  induction ks generalizing n with
  | nil => simp [idxMapFrom, CategoryMap.get?]
  | cons a ks ih =>
    by_cases h : a = k
    · subst h
      simp [idxMapFrom, CategoryMap.get?]
    · have ih' := ih (n + 1)
      simp only [CategoryMap.get?] at ih'
      have hne : ¬ k = a := fun e => h e.symm
      simp only [idxMapFrom, CategoryMap.get?, List.find?_cons, h, decide_False,
        List.mem_cons, hne, false_or, ih', List.indexOf_cons_ne _ h]
      by_cases hm : k ∈ ks
      · simp only [hm, if_true]
        congr 2; omega
      · simp [hm]

theorem idxMapFrom_set_new (ks : List String) (k : String) (h : k ∉ ks) :
    CategoryMap.set (idxMapFrom 0 ks) k (idxMapFrom 0 ks).length = idxMapFrom 0 (ks ++ [k]) := by
  simp [CategoryMap.set, idxMapFrom_get?, h, idxMapFrom_append, idxMapFrom_length]

/-! ## Graph assembler -/

theorem firstSeenFrom_prefix (seen keys : List String) :
    ∃ t, firstSeenFrom seen keys = seen ++ t := by
  induction keys generalizing seen with
  | nil => exact ⟨[], by simp [firstSeenFrom]⟩
  | cons k ks ih =>
    by_cases h : k ∈ seen
    · simpa [firstSeenFrom, h] using ih seen
    · obtain ⟨t, ht⟩ := ih (seen ++ [k])
      exact ⟨k :: t, by simp [firstSeenFrom, h, ht]⟩

theorem newNode_idxMap (src : DocSource) (path : String) (seen : List String) :
    newNode src path (idxMapFrom 0 seen) =
      match src path with
      | none => (none, idxMapFrom 0 seen)
      | some doc =>
        (some { extractContent doc with
            Id := path,
            Category := (((if Dir path ∈ seen then seen else seen ++ [Dir path]).indexOf
              (Dir path) : Nat) : Int) },
          idxMapFrom 0 (if Dir path ∈ seen then seen else seen ++ [Dir path])) := by
  unfold newNode
  cases hs : src path with
  | none => rfl
  | some doc =>
    by_cases h : Dir path ∈ seen
    · simp [h, idxMapFrom_get?]
    · have hnew := idxMapFrom_set_new seen (Dir path) h
      simp only [h, idxMapFrom_get?, if_false, Option.isSome_none, Bool.false_eq_true, hnew]
      simp [idxMapFrom_get?]

theorem keysOf_cons_some (src : DocSource) (p : String) (ps : List String) (doc : AstNode)
    (h : src p = some doc) : keysOf src (p :: ps) = Dir p :: keysOf src ps := by
  simp [keysOf, List.filter_cons, h]

theorem keysOf_cons_none (src : DocSource) (p : String) (ps : List String)
    (h : src p = none) : keysOf src (p :: ps) = keysOf src ps := by
  simp [keysOf, List.filter_cons, h]

theorem nodeOf_indexOf_append (src : DocSource) (seen t : List String) (p : String)
    (h : Dir p ∈ seen) : nodeOf src (seen ++ t) p = nodeOf src seen p := by
  simp [nodeOf, List.indexOf_append_of_mem h]

theorem foldl_parseStep (src : DocSource) (paths : List String) :
    ∀ (st : ParseState) (seen : List String), st.categoryMap = idxMapFrom 0 seen →
      (paths.foldl (parseStep src) st).categoryMap =
          idxMapFrom 0 (firstSeenFrom seen (keysOf src paths)) ∧
      (paths.foldl (parseStep src) st).nodes =
          st.nodes ++ paths.filterMap (nodeOf src (firstSeenFrom seen (keysOf src paths))) ∧
      (paths.foldl (parseStep src) st).links =
          st.links ++ (paths.filterMap
            (nodeOf src (firstSeenFrom seen (keysOf src paths)))).flatMap linksOf := by
  induction paths with
  | nil => intro st seen hst; simp [keysOf, firstSeenFrom, hst]
  | cons p ps ih =>
    intro st seen hst
    rw [List.foldl_cons]
    have hstep := newNode_idxMap src p seen
    cases hs : src p with
    | none =>
      rw [hs] at hstep
      have hst1 : parseStep src st p = st := by
        simp only [parseStep, hst, hstep]
        rw [← hst]
      rw [hst1, keysOf_cons_none src p ps hs]
      have := ih st seen hst
      simpa [List.filterMap_cons, nodeOf, hs] using this
    | some doc =>
      rw [hs] at hstep
      simp only at hstep
      generalize hseen1 : (if Dir p ∈ seen then seen else seen ++ [Dir p]) = seen1 at hstep
      have hmem : Dir p ∈ seen1 := by
        rw [← hseen1]; by_cases h : Dir p ∈ seen <;> simp [h]
      have hfinal : firstSeenFrom seen (keysOf src (p :: ps)) =
          firstSeenFrom seen1 (keysOf src ps) := by
        rw [keysOf_cons_some src p ps doc hs, ← hseen1]
        by_cases h : Dir p ∈ seen <;> simp [firstSeenFrom, h]
      obtain ⟨t, ht⟩ := firstSeenFrom_prefix seen1 (keysOf src ps)
      have hnode : nodeOf src (firstSeenFrom seen1 (keysOf src ps)) p =
          some { extractContent doc with
            Id := p, Category := ((seen1.indexOf (Dir p) : Nat) : Int) } := by
        rw [ht, nodeOf_indexOf_append src seen1 t p hmem]
        simp [nodeOf, hs]
      have hst1 : parseStep src st p =
          { nodes := st.nodes ++ [{ extractContent doc with
              Id := p, Category := ((seen1.indexOf (Dir p) : Nat) : Int) }],
            links := st.links ++ linksOf { extractContent doc with
              Id := p, Category := ((seen1.indexOf (Dir p) : Nat) : Int) },
            categoryMap := idxMapFrom 0 seen1 } := by
        simp only [parseStep, hst, hstep, foldl_append_singleton, linksOf]
      rw [hst1, hfinal]
      obtain ⟨h1, h2, h3⟩ := ih
        { nodes := st.nodes ++ [{ extractContent doc with
            Id := p, Category := ((seen1.indexOf (Dir p) : Nat) : Int) }],
          links := st.links ++ linksOf { extractContent doc with
            Id := p, Category := ((seen1.indexOf (Dir p) : Nat) : Int) },
          categoryMap := idxMapFrom 0 seen1 } seen1 rfl
      refine ⟨h1, ?_, ?_⟩
      · rw [h2, List.filterMap_cons, hnode]; simp
      · rw [h3, List.filterMap_cons, hnode]; simp [List.flatMap_cons]

theorem firstSeenFrom_eq (keys : List String) :
    ∀ seen : List String,
      firstSeenFrom seen keys = seen ++ (firstSeen keys).filter (fun x => x ∉ seen) := by
  induction keys with
  | nil => intro seen; simp [firstSeenFrom, firstSeen]
  | cons k ks ih =>
    intro seen
    by_cases h : k ∈ seen
    · simp only [firstSeenFrom, h, if_true, firstSeen, List.filter_cons, not_true_eq_false,
        decide_False, ih seen, List.filter_filter]
      congr 1
      apply List.filter_congr
      intro x _
      by_cases hx : x ∈ seen
      · simp [hx]
      · have : x ≠ k := fun e => hx (e ▸ h)
        simp [hx, this]
    · simp only [firstSeenFrom, h, if_false, firstSeen, List.filter_cons, not_false_eq_true,
        decide_True, if_true, ih (seen ++ [k]), List.filter_filter, List.append_assoc,
        List.singleton_append]
      congr 2
      apply List.filter_congr
      intro x _
      by_cases hx : x ∈ seen <;> by_cases hk : x = k <;> simp [hx, hk]

theorem firstSeenFrom_nil (keys : List String) : firstSeenFrom [] keys = firstSeen keys := by
  rw [firstSeenFrom_eq]; simp

theorem mem_firstSeen (keys : List String) (k : String) : k ∈ firstSeen keys ↔ k ∈ keys := by
  induction keys with
  | nil => simp [firstSeen]
  | cons a ks ih =>
    by_cases h : k = a
    · simp [firstSeen, h]
    · simp [firstSeen, List.mem_filter, ih, h]

theorem firstSeen_nodup (keys : List String) : (firstSeen keys).Nodup := by
  induction keys with
  | nil => simp [firstSeen]
  | cons a ks ih =>
    simp only [firstSeen, List.nodup_cons, List.mem_filter]
    exact ⟨by simp, ih.filter _⟩

/-- The order `a.Id ≤ b.Id` on categories, as the insertion sort sees it. -/
theorem categoryLess_false_iff (a b : Category) : categoryLess b a = false ↔ a.Id ≤ b.Id := by
  simp [categoryLess]

theorem idxMapFrom_lower (n : Nat) (ks : List String) :
    ∀ e ∈ idxMapFrom n ks, (n : Int) ≤ e.2 := by
  induction ks generalizing n with
  | nil => simp [idxMapFrom]
  | cons k ks ih =>
    intro e he
    simp only [idxMapFrom, List.mem_cons] at he
    rcases he with rfl | he
    · simp
    · have := ih (n + 1) e he
      push_cast at this
      omega

theorem idxMapFrom_pairwise (n : Nat) (ks : List String) :
    (idxMapFrom n ks).Pairwise (fun a b => a.2 < b.2) := by
  induction ks generalizing n with
  | nil => simp [idxMapFrom]
  | cons k ks ih =>
    simp only [idxMapFrom, List.pairwise_cons]
    refine ⟨fun e he => ?_, ih (n + 1)⟩
    have := idxMapFrom_lower (n + 1) ks e he
    push_cast at this
    show (n : Int) < e.2
    omega

theorem sortSlice_eq_of_perm_sorted (l t : List Category) (hp : l.Perm t)
    (ht : t.Pairwise (fun a b => a.Id < b.Id)) : sortSlice categoryLess l = t := by
  have hperm : (sortSlice categoryLess l).Perm t := (List.perm_insertionSort _ l).trans hp
  haveI : IsTotal Category (fun a b => categoryLess b a = false) :=
    ⟨fun a b => by simp only [categoryLess_false_iff]; exact le_total _ _⟩
  haveI : IsTrans Category (fun a b => categoryLess b a = false) :=
    ⟨fun a b c => by simp only [categoryLess_false_iff]; exact le_trans⟩
  have hle : (sortSlice categoryLess l).Pairwise (fun a b => categoryLess b a = false) :=
    List.sorted_insertionSort (fun a b => categoryLess b a = false) l
  have hne : (sortSlice categoryLess l).Pairwise (fun a b => a.Id ≠ b.Id) := by
    have h1 : (t.map Category.Id).Nodup := by
      rw [List.Nodup, List.pairwise_map]
      exact ht.imp (fun h => ne_of_lt h)
    have h2 : ((sortSlice categoryLess l).map Category.Id).Nodup :=
      (hperm.map Category.Id).nodup_iff.mpr h1
    rw [List.Nodup, List.pairwise_map] at h2
    exact h2
  have hlt : (sortSlice categoryLess l).Pairwise (fun a b => a.Id < b.Id) :=
    (hle.and hne).imp (fun h => lt_of_le_of_ne ((categoryLess_false_iff _ _).mp h.1) h.2)
  haveI : IsAntisymm Category (fun a b => a.Id < b.Id) :=
    ⟨fun a b h1 h2 => absurd (lt_trans h1 h2) (lt_irrefl _)⟩
  exact List.eq_of_perm_of_sorted hperm hlt ht

theorem sortCategories_idxMapFrom (order : MapOrder) (n : Nat) (keys : List String) :
    sortCategories order (idxMapFrom n keys) = (idxMapFrom n keys).map toCategory := by
  have hfold : sortCategories order (idxMapFrom n keys) =
      sortSlice categoryLess ((order.enum (idxMapFrom n keys)).map toCategory) := by
    simp only [sortCategories]
    rw [foldl_append_singleton (fun e : String × Int => ({ Name := e.1, Id := e.2 } : Category))]
    rfl
  rw [hfold]
  apply sortSlice_eq_of_perm_sorted
  · exact (order.perm _).map toCategory
  · rw [List.pairwise_map]
    exact idxMapFrom_pairwise n keys

/-- The graph built by `parseNotes` is the graph the specification describes. -/
theorem parseNotes_eq_graphOf (order : MapOrder) (src : DocSource) (paths : List String) :
    parseNotes order src paths = graphOf src paths := by
  obtain ⟨h1, h2, h3⟩ := foldl_parseStep src paths
    { nodes := [], links := [], categoryMap := [] } [] rfl
  rw [firstSeenFrom_nil] at h1 h2 h3
  simp only [parseNotes, graphOf, h1, h2, h3, sortCategories_idxMapFrom, List.nil_append]

theorem firstSeen_split (keys : List String) (k : String) (h : k ∈ keys) :
    ∃ rest, firstSeen keys =
      firstSeen (keys.takeWhile (fun x => decide (x ≠ k))) ++ k :: rest := by
  induction keys with
  | nil => simp at h
  | cons a ks ih =>
    by_cases hak : a = k
    · subst hak
      exact ⟨(firstSeen ks).filter (fun x => x ≠ a), by simp [firstSeen, List.takeWhile_cons]⟩
    · have hk : k ∈ ks := by
        rcases List.mem_cons.mp h with e | e
        · exact absurd e.symm hak
        · exact e
      obtain ⟨rest, hrest⟩ := ih hk
      refine ⟨rest.filter (fun x => x ≠ a), ?_⟩
      have hka : ¬ k = a := fun e => hak e.symm
      simp [firstSeen, List.takeWhile_cons, hak, hrest, List.filter_append, List.filter_cons,
        hka]

theorem not_mem_firstSeen_takeWhile (keys : List String) (k : String) :
    k ∉ firstSeen (keys.takeWhile (fun x => decide (x ≠ k))) := by
  rw [mem_firstSeen]
  intro hmem
  have := List.mem_takeWhile_imp hmem
  simp at this

theorem firstSeen_length (keys : List String) :
    (firstSeen keys).length = keys.toFinset.card := by
  rw [← List.toFinset_card_of_nodup (firstSeen_nodup keys)]
  congr 1
  ext x
  simp [mem_firstSeen]

theorem indexOf_firstSeen (keys : List String) (k : String) (h : k ∈ keys) :
    (firstSeen keys).indexOf k = (keys.takeWhile (fun x => decide (x ≠ k))).toFinset.card := by
  obtain ⟨rest, hrest⟩ := firstSeen_split keys k h
  rw [hrest, List.indexOf_append_of_not_mem (not_mem_firstSeen_takeWhile keys k),
    List.indexOf_cons_self, firstSeen_length]
  simp

theorem mem_idxMapFrom (n : Nat) (ks : List String) (hnd : ks.Nodup) :
    ∀ e ∈ idxMapFrom n ks, e.1 ∈ ks ∧ e.2 = ((n + ks.indexOf e.1 : Nat) : Int) := by
  induction ks generalizing n with
  | nil => simp [idxMapFrom]
  | cons k ks ih =>
    intro e he
    simp only [idxMapFrom, List.mem_cons] at he
    rcases he with rfl | he
    · simp
    · obtain ⟨h1, h2⟩ := ih (n + 1) (List.nodup_cons.mp hnd).2 e he
      have hne : k ≠ e.1 := fun eq => (List.nodup_cons.mp hnd).1 (eq ▸ h1)
      refine ⟨List.mem_cons_of_mem _ h1, ?_⟩
      rw [h2, List.indexOf_cons_ne _ hne]
      congr 1; omega

theorem mem_filterMap_nodeOf (src : DocSource) (keys paths : List String) (node : Node)
    (h : node ∈ paths.filterMap (nodeOf src keys)) :
    ∃ doc, node.Id ∈ paths ∧ src node.Id = some doc ∧
      node = { extractContent doc with
        Id := node.Id, Category := ((keys.indexOf (Dir node.Id) : Nat) : Int) } := by
  obtain ⟨p, hp, hn⟩ := List.mem_filterMap.mp h
  cases hs : src p with
  | none => simp [nodeOf, hs] at hn
  | some doc =>
    simp only [nodeOf, hs, Option.map_some', Option.some.injEq] at hn
    subst hn
    exact ⟨doc, hp, hs, rfl⟩

theorem keysOf_all (src : DocSource) (paths : List String)
    (hall : ∀ p ∈ paths, (src p).isSome = true) : keysOf src paths = paths.map Dir := by
  rw [keysOf, List.filter_eq_self.mpr hall]

theorem mem_keysOf (src : DocSource) (paths : List String) (p : String) (doc : AstNode)
    (hp : p ∈ paths) (hs : src p = some doc) : Dir p ∈ keysOf src paths := by
  simp only [keysOf, List.mem_map, List.mem_filter]
  exact ⟨p, ⟨hp, by simp [hs]⟩, rfl⟩

/-- C3: when every document is read, the category id given to a grouping key, in the
nodes and in the category list, is the number of distinct grouping keys that occur in
the sequence before the first occurrence of that key; every grouping key of the
sequence has a category. -/
theorem parseNotes_category_id_first_seen (order : MapOrder) (src : DocSource)
    (paths : List String) (hall : ∀ p ∈ paths, (src p).isSome = true) :
    (∀ node ∈ (parseNotes order src paths).Nodes,
      node.Category =
        (((paths.map Dir).takeWhile (fun k => decide (k ≠ Dir node.Id))).toFinset.card : Int)) ∧
    (∀ c ∈ (parseNotes order src paths).Categories,
      c.Name ∈ paths.map Dir ∧
      c.Id = (((paths.map Dir).takeWhile (fun k => decide (k ≠ c.Name))).toFinset.card : Int)) ∧
    (∀ k ∈ paths.map Dir, ∃ c ∈ (parseNotes order src paths).Categories, c.Name = k) := by
  rw [parseNotes_eq_graphOf]
  simp only [graphOf, keysOf_all src paths hall]
  refine ⟨fun node hn => ?_, fun c hc => ?_, fun k hk => ?_⟩
  · obtain ⟨doc, hp, hs, he⟩ := mem_filterMap_nodeOf src _ paths node hn
    have hk : Dir node.Id ∈ paths.map Dir := List.mem_map_of_mem Dir hp
    rw [he]
    simp only
    rw [indexOf_firstSeen _ _ hk]
  · obtain ⟨e, he, rfl⟩ := List.mem_map.mp hc
    obtain ⟨h1, h2⟩ := mem_idxMapFrom 0 _ (firstSeen_nodup _) e he
    have hk : e.1 ∈ paths.map Dir := (mem_firstSeen _ _).mp h1
    refine ⟨hk, ?_⟩
    simp only [toCategory, h2, Nat.zero_add]
    rw [indexOf_firstSeen _ _ hk]
  · have hk' : k ∈ (idxMapFrom 0 (firstSeen (paths.map Dir))).map Prod.fst := by
      rw [idxMapFrom_map_fst]; exact (mem_firstSeen _ _).mpr hk
    obtain ⟨e, he, rfl⟩ := List.mem_map.mp hk'
    exact ⟨toCategory e, List.mem_map_of_mem _ he, rfl⟩

/-- C3 (witness): the keys a, b, a give the ids a: 0 and b: 1; the keys b, a give the
ids b: 0 and a: 1. -/
theorem parseNotes_category_id_first_seen_witness :
    ((∀ node ∈ (parseNotes reverseOrder srcAll ["a/x.md", "b/y.md", "a/z.md"]).Nodes,
      node.Category =
        (((["a/x.md", "b/y.md", "a/z.md"].map Dir).takeWhile
          (fun k => decide (k ≠ Dir node.Id))).toFinset.card : Int)) ∧
    (∀ c ∈ (parseNotes reverseOrder srcAll ["a/x.md", "b/y.md", "a/z.md"]).Categories,
      c.Name ∈ ["a/x.md", "b/y.md", "a/z.md"].map Dir ∧
      c.Id = (((["a/x.md", "b/y.md", "a/z.md"].map Dir).takeWhile
        (fun k => decide (k ≠ c.Name))).toFinset.card : Int)) ∧
    (∀ k ∈ ["a/x.md", "b/y.md", "a/z.md"].map Dir,
      ∃ c ∈ (parseNotes reverseOrder srcAll ["a/x.md", "b/y.md", "a/z.md"]).Categories,
        c.Name = k)) ∧
    (parseNotes reverseOrder srcAll ["a/x.md", "b/y.md", "a/z.md"]).Categories =
      [{ Name := "a", Id := 0 }, { Name := "b", Id := 1 }] ∧
    (parseNotes reverseOrder srcAll ["b/y.md", "a/x.md"]).Categories =
      [{ Name := "b", Id := 0 }, { Name := "a", Id := 1 }] :=
  ⟨parseNotes_category_id_first_seen reverseOrder srcAll ["a/x.md", "b/y.md", "a/z.md"]
    (fun _ _ => rfl), by decide, by decide⟩

theorem filterMap_filter_isSome (src : DocSource) (keys paths : List String) :
    (paths.filter (fun p => (src p).isSome)).filterMap (nodeOf src keys) =
      paths.filterMap (nodeOf src keys) := by
  induction paths with
  | nil => rfl
  | cons p ps ih =>
    cases hs : src p with
    | none => simp [List.filter_cons, List.filterMap_cons, nodeOf, hs, ih]
    | some doc => simp [List.filter_cons, List.filterMap_cons, nodeOf, hs, ih]

/-- C5: the graph of a list of paths is the graph of its sublist of readable paths:
the nodes, the links and the categories with their ids are the same, so a document that
cannot be read adds nothing and shifts no category id. -/
theorem parseNotes_skips_failed (order : MapOrder) (src : DocSource) (paths : List String) :
    parseNotes order src paths =
      parseNotes order src (paths.filter (fun p => (src p).isSome)) := by
  rw [parseNotes_eq_graphOf, parseNotes_eq_graphOf]
  have hk : keysOf src (paths.filter (fun p => (src p).isSome)) = keysOf src paths := by
    simp [keysOf, List.filter_filter]
  simp only [graphOf, hk, filterMap_filter_isSome]

/-- C6: the Links of the graph are, node by node in order, one link per raw target of
the node in order, from the id of the node to the target with `.md` added; hence the
source of every link is the id of a node of the graph, and a raw target `Foo Bar` of a
node gives a link to `Foo Bar.md`. -/
theorem parseNotes_links (order : MapOrder) (src : DocSource) (paths : List String) :
    (parseNotes order src paths).Links =
      (parseNotes order src paths).Nodes.flatMap (fun node =>
        node.Links.map (fun t => { SourceId := node.Id, TargetId := t ++ ".md" })) ∧
    (∀ l ∈ (parseNotes order src paths).Links,
      ∃ node ∈ (parseNotes order src paths).Nodes, node.Id = l.SourceId) ∧
    (∀ node ∈ (parseNotes order src paths).Nodes, "Foo Bar" ∈ node.Links →
      { SourceId := node.Id, TargetId := "Foo Bar.md" } ∈ (parseNotes order src paths).Links) := by
  have h : (parseNotes order src paths).Links =
      (parseNotes order src paths).Nodes.flatMap (fun node =>
        node.Links.map (fun t => { SourceId := node.Id, TargetId := t ++ ".md" })) := by
    rw [parseNotes_eq_graphOf]; rfl
  refine ⟨h, fun l hl => ?_, fun node hn ht => ?_⟩
  · rw [h] at hl
    obtain ⟨node, hn, hl⟩ := List.mem_flatMap.mp hl
    obtain ⟨t, _, rfl⟩ := List.mem_map.mp hl
    exact ⟨node, hn, rfl⟩
  · rw [h]
    exact List.mem_flatMap.mpr ⟨node, hn, List.mem_map.mpr ⟨"Foo Bar", ht, rfl⟩⟩

/-- C6 (witness): the note `n/foo.md` with the link reference `Foo Bar`, a target for
which no node exists, gives the single link from `n/foo.md` to `Foo Bar.md`. -/
theorem parseNotes_links_witness :
    (parseNotes insertionOrder srcFooBar ["n/foo.md"]).Links =
      [{ SourceId := "n/foo.md", TargetId := "Foo Bar.md" }] ∧
    { SourceId := "n/foo.md", TargetId := "Foo Bar.md" } ∈
      (parseNotes insertionOrder srcFooBar ["n/foo.md"]).Links :=
  ⟨by decide,
    (parseNotes_links insertionOrder srcFooBar ["n/foo.md"]).2.2
      { Id := "n/foo.md", Name := "", Category := 0, Value := "Foo Bar", Links := ["Foo Bar"] }
      (by decide) (by decide)⟩

theorem idxMapFrom_map_snd (n : Nat) (ks : List String) :
    (idxMapFrom n ks).map Prod.snd = (List.range' n ks.length).map Int.ofNat := by
  induction ks generalizing n with
  | nil => rfl
  | cons k ks ih => simp [idxMapFrom, ih, List.range'_succ]

/-- C7: the ids of the category list are 0, 1, 2, ... in list order, so the list is
sorted by strictly increasing id; no name occurs twice, and the names are the grouping
keys of the readable documents in the order of their first appearance. -/
theorem parseNotes_categories_dense_sorted (order : MapOrder) (src : DocSource)
    (paths : List String) :
    (parseNotes order src paths).Categories.Pairwise (fun a b => a.Id < b.Id) ∧
    (parseNotes order src paths).Categories.map Category.Id =
      (List.range (parseNotes order src paths).Categories.length).map Int.ofNat ∧
    ((parseNotes order src paths).Categories.map Category.Name).Nodup ∧
    (parseNotes order src paths).Categories.map Category.Name =
      firstSeen (keysOf src paths) := by
  rw [parseNotes_eq_graphOf]
  simp only [graphOf]
  have hname : ((idxMapFrom 0 (firstSeen (keysOf src paths))).map toCategory).map
      Category.Name = firstSeen (keysOf src paths) := by
    rw [List.map_map]
    exact idxMapFrom_map_fst 0 _
  have hid : ((idxMapFrom 0 (firstSeen (keysOf src paths))).map toCategory).map
      Category.Id = (List.range' 0 (firstSeen (keysOf src paths)).length).map Int.ofNat := by
    rw [List.map_map]
    exact idxMapFrom_map_snd 0 _
  refine ⟨?_, ?_, ?_, hname⟩
  · rw [List.pairwise_map]
    exact idxMapFrom_pairwise 0 _
  · rw [hid, List.length_map, idxMapFrom_length, List.range_eq_range']
  · rw [hname]; exact firstSeen_nodup _

theorem idxMapFrom_getElem? (n : Nat) (ks : List String) (i : Nat) :
    (idxMapFrom n ks)[i]? = (ks[i]?).map (fun k => (k, ((n + i : Nat) : Int))) := by
  induction ks generalizing n i with
  | nil => simp [idxMapFrom]
  | cons k ks ih =>
    cases i with
    | zero => simp [idxMapFrom]
    | succ i =>
      simp only [idxMapFrom, List.getElem?_cons_succ, ih]
      have : n + 1 + i = n + (i + 1) := by omega
      rw [this]

/-- C8: the Category of every node of the graph is a valid index into the category
list, and the category at that index has the directory of the node id as its Name. -/
theorem parseNotes_node_category_valid (order : MapOrder) (src : DocSource)
    (paths : List String) (node : Node) (hnode : node ∈ (parseNotes order src paths).Nodes) :
    0 ≤ node.Category ∧
    node.Category < ((parseNotes order src paths).Categories.length : Int) ∧
    ∃ c, (parseNotes order src paths).Categories[node.Category.toNat]? = some c ∧
      c.Name = Dir node.Id ∧ c.Id = node.Category := by
  rw [parseNotes_eq_graphOf] at hnode ⊢
  simp only [graphOf] at hnode ⊢
  obtain ⟨doc, hp, hs, he⟩ := mem_filterMap_nodeOf src _ paths node hnode
  have hk : Dir node.Id ∈ firstSeen (keysOf src paths) :=
    (mem_firstSeen _ _).mpr (mem_keysOf src paths node.Id doc hp hs)
  have hlt : (firstSeen (keysOf src paths)).indexOf (Dir node.Id) <
      (firstSeen (keysOf src paths)).length := List.indexOf_lt_length.mpr hk
  have hcat : node.Category =
      (((firstSeen (keysOf src paths)).indexOf (Dir node.Id) : Nat) : Int) := by
    rw [he]
  refine ⟨by rw [hcat]; exact Int.ofNat_nonneg _, ?_, ?_⟩
  · rw [hcat, List.length_map, idxMapFrom_length]
    exact_mod_cast hlt
  · rw [hcat, Int.toNat_ofNat, List.getElem?_map, idxMapFrom_getElem?,
      List.getElem?_eq_getElem hlt]
    refine ⟨_, rfl, ?_, ?_⟩
    · simp [toCategory, List.getElem_indexOf]
    · simp [toCategory]

/-- C8 (witness): the node of `a/one.md` in the end-to-end scenario has category 0, and
the category at index 0 is named after the directory of `a/one.md`. -/
theorem parseNotes_node_category_valid_witness :
    (0 : Int) ≤ 0 ∧
    (0 : Int) < ((parseNotes insertionOrder srcScenario
      ["a/one.md", "a/two.md"]).Categories.length : Int) ∧
    ∃ c, (parseNotes insertionOrder srcScenario
        ["a/one.md", "a/two.md"]).Categories[(0 : Int).toNat]? = some c ∧
      c.Name = Dir "a/one.md" ∧ c.Id = 0 :=
  parseNotes_node_category_valid insertionOrder srcScenario ["a/one.md", "a/two.md"]
    { Id := "a/one.md", Name := "One", Category := 0, Value := "One\ntwo", Links := ["two"] }
    (by decide)

/-- C9 (counterexample): in the end-to-end scenario the single category is named `a`,
the result of `filepath.Dir` on `a/one.md`, not `a/`. -/
theorem parseNotes_scenario_category_name :
    (parseNotes insertionOrder srcScenario ["a/one.md", "a/two.md"]).Categories =
      [{ Name := "a", Id := 0 }] ∧
    (parseNotes insertionOrder srcScenario ["a/one.md", "a/two.md"]).Categories ≠
      [{ Name := "a/", Id := 0 }] := by
  decide

/-- C9 (amended): for the documents `a/one.md` (title One, one link reference to two)
and `a/two.md` (title Two, no link reference), processed in that order, the graph has
two nodes, both of category 0, the single link from `a/one.md` to `two.md`, and the
single category named `a` with id 0. -/
theorem parseNotes_scenario (order : MapOrder) (src : DocSource) (d1 d2 : AstNode)
    (h1 : src "a/one.md" = some d1) (h2 : src "a/two.md" = some d2)
    (hn1 : (extractContent d1).Name = "One") (hl1 : (extractContent d1).Links = ["two"])
    (hn2 : (extractContent d2).Name = "Two") (hl2 : (extractContent d2).Links = []) :
    (parseNotes order src ["a/one.md", "a/two.md"]).Nodes.map
        (fun n => (n.Id, n.Name, n.Category, n.Links)) =
      [("a/one.md", "One", 0, ["two"]), ("a/two.md", "Two", 0, [])] ∧
    (parseNotes order src ["a/one.md", "a/two.md"]).Links =
      [{ SourceId := "a/one.md", TargetId := "two.md" }] ∧
    (parseNotes order src ["a/one.md", "a/two.md"]).Categories =
      [{ Name := "a", Id := 0 }] := by
  have hd1 : Dir "a/one.md" = "a" := by decide
  have hd2 : Dir "a/two.md" = "a" := by decide
  have hk : keysOf src ["a/one.md", "a/two.md"] = ["a", "a"] := by
    simp [keysOf, List.filter_cons, h1, h2, hd1, hd2]
  have ht : ("two" : String) ++ ".md" = "two.md" := by decide
  rw [parseNotes_eq_graphOf]
  simp [graphOf, hk, firstSeen, idxMapFrom, toCategory, nodeOf, h1, h2, hd1, hd2, hn1, hl1,
    hn2, hl2, linksOf, ht]

/-- C9 (witness): the scenario with the trees of `# One`, `[[two]]` and of `# Two`. -/
theorem parseNotes_scenario_witness :
    (parseNotes insertionOrder srcScenario ["a/one.md", "a/two.md"]).Nodes.map
        (fun n => (n.Id, n.Name, n.Category, n.Links)) =
      [("a/one.md", "One", 0, ["two"]), ("a/two.md", "Two", 0, [])] ∧
    (parseNotes insertionOrder srcScenario ["a/one.md", "a/two.md"]).Links =
      [{ SourceId := "a/one.md", TargetId := "two.md" }] ∧
    (parseNotes insertionOrder srcScenario ["a/one.md", "a/two.md"]).Categories =
      [{ Name := "a", Id := 0 }] :=
  parseNotes_scenario insertionOrder srcScenario docOne docTwo (by simp [srcScenario])
    (by simp [srcScenario]) (by decide) (by decide) (by decide) (by decide)

/-! ## Content extractor: the heading that sets the title -/

theorem extractContent_name_of_split (doc h : AstNode) (pre post : List AstNode)
    (hsplit : (preorder doc).filter isRank1Heading = pre ++ h :: post)
    (hpre : ∀ x ∈ pre, directText x = "") (hne : directText h ≠ "") :
    (extractContent doc).Name = directText h := by
  rw [extractContent_name, rank1Texts, hsplit, List.map_append, List.map_cons]
  apply firstNonEmpty_append_cons _ _ _ _ hne
  intro x hx
  obtain ⟨y, hy, rfl⟩ := List.mem_map.mp hx
  exact hpre y hy

theorem directText_eq_kinds (h : AstNode) :
    directText h = String.join ((h.children.map AstNode.kind).filterMap kindSegment?) := by
  rw [directText, List.filterMap_map]
  congr 1
  apply List.filterMap_congr
  intro c _
  rcases c with ⟨k, cs⟩
  cases k <;> rfl

theorem mem_preorderList_of_mem (cs : List AstNode) (c : AstNode) (h : c ∈ cs) :
    c ∈ preorderList cs := by
  induction cs with
  | nil => simp at h
  | cons a cs ih =>
    rw [preorderList]
    rcases List.mem_cons.mp h with rfl | h
    · rcases c with ⟨k, ch⟩
      simp [preorder]
    · exact List.mem_append_right _ (ih h)

mutual
/-- The children of a node of a tree are nodes of the tree. -/
theorem mem_preorder_children :
    (n : AstNode) → ∀ h ∈ preorder n, ∀ c ∈ h.children, c ∈ preorder n
  | AstNode.mk k cs => by
    intro h hh c hc
    rw [preorder] at hh ⊢
    rcases List.mem_cons.mp hh with rfl | hh
    · exact List.mem_cons_of_mem _ (mem_preorderList_of_mem cs c hc)
    · exact List.mem_cons_of_mem _ (mem_preorderList_children cs h hh c hc)
/-- The children of a node of a list of trees are nodes of these trees. -/
theorem mem_preorderList_children :
    (cs : List AstNode) → ∀ h ∈ preorderList cs, ∀ c ∈ h.children, c ∈ preorderList cs
  | [] => by
    intro h hh
    simp [preorderList] at hh
  | a :: cs => by
    intro h hh c hc
    rw [preorderList] at hh ⊢
    rcases List.mem_append.mp hh with hh | hh
    · exact List.mem_append_left _ (mem_preorder_children a h hh c hc)
    · exact List.mem_append_right _ (mem_preorderList_children cs h hh c hc)
end

/-- C11: when the first rank-1 heading of the tree in pre-order has a non-empty text, the
Name is exactly the concatenation, in child order, of the segments of its direct text-run
children; only the kinds of the direct children enter, so text nested inside a child that
is not a text run adds nothing. -/
theorem extractContent_name_first_heading_text (doc h : AstNode) (rest : List AstNode)
    (hfirst : (preorder doc).filter isRank1Heading = h :: rest)
    (hne : String.join (h.children.filterMap textSegment?) ≠ "") :
    (extractContent doc).Name = String.join (h.children.filterMap textSegment?) ∧
    (extractContent doc).Name =
      String.join ((h.children.map AstNode.kind).filterMap kindSegment?) := by
  have hn : (extractContent doc).Name = directText h :=
    extractContent_name_of_split doc h [] rest hfirst (by simp) hne
  exact ⟨hn, hn.trans (directText_eq_kinds h)⟩

/-- C11 (witness): the heading with the children A, emphasis around B, C gives the Name
AC. -/
theorem extractContent_name_first_heading_text_witness :
    (extractContent docNestedHeading).Name = "AC" ∧
    (extractContent docNestedHeading).Name =
      String.join ((nestedHeading.children.map AstNode.kind).filterMap kindSegment?) :=
  extractContent_name_first_heading_text docNestedHeading nestedHeading []
    (by simp [docNestedHeading, nestedHeading, preorder, preorderList, isRank1Heading])
    (by decide)

/-- C12: a document tree without a heading of rank 1, whatever other headings it has,
gives the empty Name. -/
theorem extractContent_name_no_rank1 (doc : AstNode)
    (hnone : ∀ n ∈ preorder doc, isRank1Heading n = false) :
    (extractContent doc).Name = "" := by
  have hfilter : (preorder doc).filter isRank1Heading = [] := by
    rw [List.filter_eq_nil_iff]
    intro n hn
    simp [hnone n hn]
  rw [extractContent_name, rank1Texts, hfilter]
  rfl

/-- C12 (witness): a document with headings of rank 2 and 3 only has the empty Name. -/
theorem extractContent_name_no_rank1_witness :
    (∀ n ∈ preorder docNoRank1, isRank1Heading n = false) ∧
      (extractContent docNoRank1).Name = "" :=
  ⟨by decide, extractContent_name_no_rank1 docNoRank1 (by decide)⟩

/-- C20: the heading that sets the Name keeps its text in the body: every direct
text-run child of that heading is a text run of the tree, and its segment is one of the
fragments that the Value joins with newlines. -/
theorem extractContent_title_in_value (doc h : AstNode) (pre post : List AstNode)
    (hsplit : (preorder doc).filter isRank1Heading = pre ++ h :: post)
    (hpre : ∀ x ∈ pre, directText x = "") (hne : directText h ≠ "") :
    (extractContent doc).Name = directText h ∧
    ∀ seg ∈ h.children.filterMap textSegment?,
      ∃ before after, textRuns doc = before ++ seg :: after ∧
        (extractContent doc).Value = "\n".intercalate (before ++ seg :: after) := by
  refine ⟨extractContent_name_of_split doc h pre post hsplit hpre hne, fun seg hseg => ?_⟩
  obtain ⟨c, hc, hcseg⟩ := List.mem_filterMap.mp hseg
  have hh : h ∈ preorder doc := by
    have : h ∈ (preorder doc).filter isRank1Heading := by rw [hsplit]; simp
    exact (List.mem_filter.mp this).1
  have hcdoc : c ∈ preorder doc := mem_preorder_children doc h hh c hc
  have hmem : seg ∈ textRuns doc := List.mem_filterMap.mpr ⟨c, hcdoc, hcseg⟩
  obtain ⟨before, after, hba⟩ := List.append_of_mem hmem
  refine ⟨before, after, hba, ?_⟩
  rw [← hba]
  simp [extractContent, walk_eq_foldl, foldl_visit_valueLines, textRuns, Join_eq_intercalate]

/-- C20 (witness): in the document `# One`, `[[two]]` the title One is also the first
fragment of the Value. -/
theorem extractContent_title_in_value_witness :
    (extractContent docOne).Name = "One" ∧
    ∀ seg ∈ [("One" : String)],
      ∃ before after, textRuns docOne = before ++ seg :: after ∧
        (extractContent docOne).Value = "\n".intercalate (before ++ seg :: after) :=
  extractContent_title_in_value docOne
    (AstNode.mk (NodeKind.heading 1) [AstNode.mk (NodeKind.text "One") []]) []
    [] (by simp [docOne, preorder, preorderList, isRank1Heading]) (by simp) (by decide)

/-! ## Serializer: escaping and layout of the fragments -/

theorem digitChar_mem_decimalDigits (d : Nat) (h : d < 10) :
    Nat.digitChar d ∈ decimalDigits := by
  interval_cases d <;> decide

theorem toDigitsCore_chars (fuel : Nat) :
    ∀ (n : Nat) (ds : List Char), (∀ c ∈ ds, c ∈ decimalDigits) →
      ∀ c ∈ Nat.toDigitsCore 10 fuel n ds, c ∈ decimalDigits := by
  induction fuel with
  | zero => intro n ds hds c hc; exact hds c (by simpa [Nat.toDigitsCore] using hc)
  | succ fuel ih =>
    intro n ds hds c hc
    have hd : Nat.digitChar (n % 10) ∈ decimalDigits :=
      digitChar_mem_decimalDigits _ (Nat.mod_lt _ (by decide))
    have hds1 : ∀ c ∈ Nat.digitChar (n % 10) :: ds, c ∈ decimalDigits := by
      intro c hc
      rcases List.mem_cons.mp hc with rfl | hc
      · exact hd
      · exact hds c hc
    simp only [Nat.toDigitsCore] at hc
    split at hc
    · exact hds1 c hc
    · exact ih _ _ hds1 c hc

theorem natRepr_chars (n : Nat) : ∀ c ∈ (Nat.repr n).data, c ∈ decimalDigits := by
  intro c hc
  have hc1 : c ∈ Nat.toDigits 10 n := by
    simpa [Nat.repr, List.asString] using hc
  exact toDigitsCore_chars _ _ _ (by simp) c hc1

/-- The characters written for `%d` are a minus sign or decimal digits. -/
theorem formatInt_chars (n : Int) : ∀ c ∈ (formatInt n).data, c = '-' ∨ c ∈ decimalDigits := by
  intro c hc
  cases n with
  | ofNat m =>
    right
    exact natRepr_chars m c hc
  | negSucc m =>
    have hc1 : c ∈ ("-" ++ Nat.repr (m + 1)).data := hc
    rw [String.data_append] at hc1
    rcases List.mem_append.mp hc1 with h | h
    · left
      simpa using h
    · right
      exact natRepr_chars _ c h

theorem formatInt_no_newline (n : Int) : '\n' ∉ (formatInt n).data := by
  intro h
  rcases formatInt_chars n _ h with h | h
  · exact absurd h (by decide)
  · exact absurd h (by decide)

theorem replaceAll_data (s : String) :
    (ReplaceAll s '\n' "\\n").data =
      s.data.flatMap (fun c => if c = '\n' then ['\\', 'n'] else [c]) := by
  rfl

theorem replaceAll_no_newline (s : String) : '\n' ∉ (ReplaceAll s '\n' "\\n").data := by
  rw [replaceAll_data]
  intro h
  obtain ⟨c, _, hc⟩ := List.mem_flatMap.mp h
  by_cases hn : c = '\n'
  · rw [if_pos hn] at hc
    exact absurd hc (by decide)
  · rw [if_neg hn] at hc
    exact hn (List.mem_singleton.mp hc).symm

theorem nodeStr_data (node : Node) :
    (nodeStr node).data =
      "\x7b id: \"".data ++ (node.Id.data ++ ("\", name: \"".data ++ (node.Name.data ++
        ("\", category: ".data ++ ((formatInt node.Category).data ++ (", value: \"".data ++
          ((ReplaceAll node.Value '\n' "\\n").data ++ "\" \x7d".data))))))) := by
  simp [nodeStr, String.data_append, List.append_assoc]

theorem escape_injective (l1 : List Char) :
    ∀ l2 : List Char, '\\' ∉ l1 → '\\' ∉ l2 →
      l1.flatMap (fun c => if c = '\n' then ['\\', 'n'] else [c]) =
        l2.flatMap (fun c => if c = '\n' then ['\\', 'n'] else [c]) → l1 = l2 := by
  induction l1 with
  | nil =>
    intro l2 _ _ h
    cases l2 with
    | nil => rfl
    | cons b l2 =>
      by_cases hb : b = '\n' <;> simp [List.flatMap_cons, hb] at h
  | cons a l1 ih =>
    intro l2 h1 h2 h
    cases l2 with
    | nil =>
      by_cases ha : a = '\n' <;> simp [List.flatMap_cons, ha] at h
    | cons b l2 =>
      have ha1 : a ≠ '\\' := fun e => h1 (by simp [e])
      have hb1 : b ≠ '\\' := fun e => h2 (by simp [e])
      have h1t : '\\' ∉ l1 := fun e => h1 (List.mem_cons_of_mem _ e)
      have h2t : '\\' ∉ l2 := fun e => h2 (List.mem_cons_of_mem _ e)
      by_cases ha : a = '\n' <;> by_cases hb : b = '\n'
      · simp only [List.flatMap_cons, ha, hb, if_true, List.cons_append, List.nil_append,
          List.cons.injEq, true_and] at h
        rw [ha, hb, ih l2 h1t h2t h]
      · simp only [List.flatMap_cons, ha, hb, if_true, if_false, List.cons_append,
          List.nil_append, List.cons.injEq] at h
        exact absurd h.1.symm hb1
      · simp only [List.flatMap_cons, ha, hb, if_true, if_false, List.cons_append,
          List.nil_append, List.cons.injEq] at h
        exact absurd h.1 ha1
      · simp only [List.flatMap_cons, ha, hb, if_false, List.cons_append,
          List.nil_append, List.cons.injEq] at h
        rw [h.1, ih l2 h1t h2t h.2]

theorem hasBackslashN_iff (l : List Char) :
    hasBackslashN l = true ↔ ∃ pre post, l = pre ++ '\\' :: 'n' :: post := by
  induction l with
  | nil => simp [hasBackslashN]
  | cons c cs ih =>
    simp only [hasBackslashN, Bool.or_eq_true, Bool.and_eq_true, beq_iff_eq, ih]
    constructor
    · rintro (⟨hc, hn⟩ | ⟨pre, post, h⟩)
      · cases cs with
        | nil => simp at hn
        | cons d ds =>
          simp only [List.head?_cons, Option.some.injEq] at hn
          exact ⟨[], ds, by simp [hc, hn]⟩
      · exact ⟨c :: pre, post, by simp [h]⟩
    · rintro ⟨pre, post, h⟩
      cases pre with
      | nil =>
        simp only [List.nil_append, List.cons.injEq] at h
        left
        exact ⟨h.1, by simp [h.2]⟩
      | cons p pre =>
        simp only [List.cons_append, List.cons.injEq] at h
        right
        exact ⟨pre, post, h.2⟩

theorem escape_injective_of_no_backslashN (l1 : List Char) :
    ∀ l2 : List Char, hasBackslashN l1 = false → hasBackslashN l2 = false →
      l1.flatMap (fun c => if c = '\n' then ['\\', 'n'] else [c]) =
        l2.flatMap (fun c => if c = '\n' then ['\\', 'n'] else [c]) → l1 = l2 := by
  have hstart : ∀ (b : Char) (l t : List Char), b ≠ '\n' →
      hasBackslashN (b :: l) = false →
      '\\' :: 'n' :: t =
        (b :: l).flatMap (fun c => if c = '\n' then ['\\', 'n'] else [c]) → False := by
    intro b l t hb hno h
    simp only [List.flatMap_cons, hb, if_false, List.cons_append, List.nil_append,
      List.cons.injEq] at h
    obtain ⟨hb1, h⟩ := h
    cases l with
    | nil => simp at h
    | cons c l =>
      by_cases hc : c = '\n'
      · simp only [List.flatMap_cons, hc, if_true, List.cons_append, List.nil_append,
          List.cons.injEq] at h
        exact absurd h.1 (by decide)
      · simp only [List.flatMap_cons, hc, if_false, List.cons_append, List.nil_append,
          List.cons.injEq] at h
        simp [hasBackslashN, ← hb1, ← h.1] at hno
  induction l1 with
  | nil =>
    intro l2 _ _ h
    cases l2 with
    | nil => rfl
    | cons b l2 =>
      by_cases hb : b = '\n' <;> simp [List.flatMap_cons, hb] at h
  | cons a l1 ih =>
    intro l2 h1 h2 h
    cases l2 with
    | nil =>
      by_cases ha : a = '\n' <;> simp [List.flatMap_cons, ha] at h
    | cons b l2 =>
      have h1t : hasBackslashN l1 = false := by
        simp only [hasBackslashN, Bool.or_eq_false_iff] at h1
        exact h1.2
      have h2t : hasBackslashN l2 = false := by
        simp only [hasBackslashN, Bool.or_eq_false_iff] at h2
        exact h2.2
      by_cases ha : a = '\n' <;> by_cases hb : b = '\n'
      · simp only [List.flatMap_cons, ha, hb, if_true, List.cons_append, List.nil_append,
          List.cons.injEq, true_and] at h
        rw [ha, hb, ih l2 h1t h2t h]
      · exfalso
        apply hstart b l2 _ hb h2
        simpa only [List.flatMap_cons, ha, if_true, List.cons_append, List.nil_append] using h
      · exfalso
        apply hstart a l1 _ ha h1
        simpa only [List.flatMap_cons, hb, if_true, List.cons_append, List.nil_append]
          using h.symm
      · simp only [List.flatMap_cons, ha, hb, if_false, List.cons_append,
          List.nil_append, List.cons.injEq] at h
        rw [h.1, ih l2 h1t h2t h.2]

/-- A body that holds a backslash followed by the letter n shares its value field with
another body: the one with a line break in place of that sequence. -/
theorem replaceAll_collision_of_backslashN (pre post : List Char) :
    ReplaceAll (String.mk (pre ++ '\\' :: 'n' :: post)) '\n' "\\n" =
        ReplaceAll (String.mk (pre ++ '\n' :: post)) '\n' "\\n" ∧
      String.mk (pre ++ '\\' :: 'n' :: post) ≠ String.mk (pre ++ '\n' :: post) := by
  constructor
  · apply String.ext
    rw [replaceAll_data, replaceAll_data]
    simp [List.flatMap_append, List.flatMap_cons]
  · intro h
    have hl := congrArg (fun s : String => s.data.length) h
    simp at hl

/-- C13 (counterexample): the body with a line break between a and b and the body with
a backslash and the letter n between a and b give the same fragment, the nodes being
equal in Id, Name and Category. -/
theorem nodesToStrings_backslash_collision :
    newlineNode.Id = backslashNode.Id ∧ newlineNode.Name = backslashNode.Name ∧
    newlineNode.Category = backslashNode.Category ∧
    nodesToStrings [newlineNode] = nodesToStrings [backslashNode] ∧
    nodesToStrings [backslashNode] =
      ["\x7b id: \"n.md\", name: \"T\", category: 0, value: \"a\\nb\" \x7d"] ∧
    newlineNode.Value ≠ backslashNode.Value := by
  decide

/-- C13 (amended): a backslash of the body is written as it is, so the fragment
determines the body among the bodies that do not hold the two-character sequence
backslash, letter n: two nodes with equal Id, Name and Category whose Values hold no such
sequence and whose fragments are equal have equal Values. -/
theorem nodesToStrings_value_injective (n1 n2 : Node)
    (hid : n1.Id = n2.Id) (hname : n1.Name = n2.Name) (hcat : n1.Category = n2.Category)
    (h1 : hasBackslashN n1.Value.data = false) (h2 : hasBackslashN n2.Value.data = false)
    (hfrag : nodesToStrings [n1] = nodesToStrings [n2]) : n1.Value = n2.Value := by
  rw [nodesToStrings_eq_map, nodesToStrings_eq_map] at hfrag
  have hstr : nodeStr n1 = nodeStr n2 := by simpa using hfrag
  have hdata := congrArg String.data hstr
  rw [nodeStr_data, nodeStr_data, hid, hname, hcat] at hdata
  have hsan : (ReplaceAll n1.Value '\n' "\\n").data = (ReplaceAll n2.Value '\n' "\\n").data := by
    have e1 := List.append_cancel_left hdata
    have e2 := List.append_cancel_left e1
    have e3 := List.append_cancel_left e2
    have e4 := List.append_cancel_left e3
    have e5 := List.append_cancel_left e4
    have e6 := List.append_cancel_left e5
    have e7 := List.append_cancel_left e6
    exact List.append_cancel_right e7
  rw [replaceAll_data, replaceAll_data] at hsan
  exact String.ext (escape_injective_of_no_backslashN _ _ h1 h2 hsan)

/-- C13 (witness): two nodes whose body holds backslashes, none followed by the letter
n, and that differ in their raw link targets only, have the same fragment and the same
Value. -/
theorem nodesToStrings_value_injective_witness :
    hasBackslashN backslashBodyNode.Value.data = false ∧
    '\\' ∈ backslashBodyNode.Value.data ∧
    backslashBodyNode.Value = backslashBodyNodeNoLinks.Value :=
  ⟨by decide, by decide,
    nodesToStrings_value_injective backslashBodyNode backslashBodyNodeNoLinks rfl rfl rfl
      (by decide) (by decide) (by decide)⟩

/-- C14: when the Id and the Name of the nodes hold no newline, no fragment holds a
newline: the value field is the body with every newline replaced by a backslash and the
letter n, every other character kept, in order. -/
theorem nodesToStrings_no_newline (nodes : List Node)
    (hclean : ∀ node ∈ nodes, '\n' ∉ node.Id.data ∧ '\n' ∉ node.Name.data) :
    (∀ frag ∈ nodesToStrings nodes, '\n' ∉ frag.data) ∧
    nodesToStrings nodes = nodes.map (fun node =>
      "\x7b id: \"" ++ node.Id ++ "\", name: \"" ++ node.Name ++ "\", category: "
        ++ formatInt node.Category ++ ", value: \""
        ++ String.mk (node.Value.data.flatMap (fun c => if c = '\n' then ['\\', 'n'] else [c]))
        ++ "\" \x7d") := by
  refine ⟨fun frag hfrag => ?_, ?_⟩
  · rw [nodesToStrings_eq_map] at hfrag
    obtain ⟨node, hnode, rfl⟩ := List.mem_map.mp hfrag
    obtain ⟨hid, hname⟩ := hclean node hnode
    rw [nodeStr_data]
    simp only [List.mem_append, not_or]
    exact ⟨by decide, hid, by decide, hname, by decide, formatInt_no_newline _, by decide,
      replaceAll_no_newline _, by decide⟩
  · rw [nodesToStrings_eq_map]
    rfl

/-- C14 (witness): the body with the lines `l1` and `l2` is written on one line. -/
theorem nodesToStrings_no_newline_witness :
    (∀ frag ∈ nodesToStrings [twoLineNode], '\n' ∉ frag.data) ∧
    nodesToStrings [twoLineNode] =
      ["\x7b id: \"a/x.md\", name: \"T\", category: 3, value: \"l1\\nl2\" \x7d"] :=
  ⟨(nodesToStrings_no_newline [twoLineNode] (by decide)).1, by decide⟩

theorem linksToStrings_eq_map (links : List Link) :
    linksToStrings links = links.map (fun link =>
      "\x7b source: \"" ++ link.SourceId ++ "\", target: \"" ++ link.TargetId ++ "\" \x7d") := by
  simp [linksToStrings, foldl_append_singleton]

theorem categoriesToStrings_eq_map (categories : List Category) :
    categoriesToStrings categories = categories.map (fun category =>
      "\x7b name: \"" ++ category.Name ++ "\" \x7d") := by
  simp [categoriesToStrings, foldl_append_singleton]

/-- C18: `toGraphStrings` gives one fragment per node, per link and per category, in the
order of the lists of the graph, and the fragment at an index is a function of the
fields of the entity at that index alone: Id, Name, Category (in decimal) and Value of a
node, SourceId and TargetId of a link, Name of a category. -/
theorem toGraphStrings_fragments (g : Graph) :
    (g.toGraphStrings.Nodes.length = g.Nodes.length ∧
      g.toGraphStrings.Links.length = g.Links.length ∧
      g.toGraphStrings.Categories.length = g.Categories.length) ∧
    (∀ i : Nat, g.toGraphStrings.Nodes[i]? = (g.Nodes[i]?).map (fun node =>
      "\x7b id: \"" ++ node.Id ++ "\", name: \"" ++ node.Name ++ "\", category: "
        ++ formatInt node.Category ++ ", value: \"" ++ ReplaceAll node.Value '\n' "\\n"
        ++ "\" \x7d")) ∧
    (∀ i : Nat, g.toGraphStrings.Links[i]? = (g.Links[i]?).map (fun link =>
      "\x7b source: \"" ++ link.SourceId ++ "\", target: \"" ++ link.TargetId ++ "\" \x7d")) ∧
    (∀ i : Nat, g.toGraphStrings.Categories[i]? = (g.Categories[i]?).map (fun category =>
      "\x7b name: \"" ++ category.Name ++ "\" \x7d")) ∧
    (∀ k : Nat, formatInt (k : Int) = String.mk (Nat.toDigits 10 k) ∧
      formatInt (-((k : Int) + 1)) = "-" ++ String.mk (Nat.toDigits 10 (k + 1))) := by
  refine ⟨⟨?_, ?_, ?_⟩, fun i => ?_, fun i => ?_, fun i => ?_, fun k => ⟨rfl, ?_⟩⟩
  · simp [Graph.toGraphStrings, nodesToStrings_eq_map]
  · simp [Graph.toGraphStrings, linksToStrings_eq_map]
  · simp [Graph.toGraphStrings, categoriesToStrings_eq_map]
  · simp only [Graph.toGraphStrings, nodesToStrings_eq_map, List.getElem?_map]
    rfl
  · simp only [Graph.toGraphStrings, linksToStrings_eq_map, List.getElem?_map]
  · simp only [Graph.toGraphStrings, categoriesToStrings_eq_map, List.getElem?_map]
  · have : -((k : Int) + 1) = Int.negSucc k := by
      rw [Int.negSucc_eq]
    rw [this]
    rfl

/-! ## Category assignment, determinism, node ids -/

theorem get?_append_singleton (m : CategoryMap) (k : String) (v : Int) (k' : String) :
    CategoryMap.get? (m ++ [(k, v)]) k' =
      if (CategoryMap.get? m k').isSome then CategoryMap.get? m k'
      else if k = k' then some v else none := by
  simp only [CategoryMap.get?, List.find?_append]
  cases hm : m.find? (fun e => decide (e.1 = k')) <;> by_cases hk : k = k' <;> simp [hk]

/-- C15: the category assignment of `newNode` on a map and the grouping key of the path:
a key that is in the map gets its recorded id and the map stays as it is; a key that is
not in the map gets the size of the map as id, is recorded with that id, and every other
key keeps its entry. -/
theorem newNode_category_assignment (src : DocSource) (path : String) (doc : AstNode)
    (m : CategoryMap) (hdoc : src path = some doc) :
    (∀ v, CategoryMap.get? m (Dir path) = some v →
      newNode src path m = (some { extractContent doc with Id := path, Category := v }, m)) ∧
    (CategoryMap.get? m (Dir path) = none →
      ∃ m1, newNode src path m =
          (some { extractContent doc with Id := path, Category := (m.length : Int) }, m1) ∧
        CategoryMap.get? m1 (Dir path) = some (m.length : Int) ∧
        m1.length = m.length + 1 ∧
        (∀ e ∈ m, e ∈ m1) ∧
        ∀ k, k ≠ Dir path → CategoryMap.get? m1 k = CategoryMap.get? m k) := by
  constructor
  · intro v hv
    simp [newNode, hdoc, hv]
  · intro hnone
    refine ⟨m ++ [(Dir path, (m.length : Int))], ?_, ?_, ?_, ?_, ?_⟩
    · simp [newNode, hdoc, hnone, CategoryMap.set, get?_append_singleton]
    · simp [get?_append_singleton, hnone]
    · simp
    · intro e he
      exact List.mem_append_left _ he
    · intro k hk
      have hk1 : ¬ Dir path = k := fun e => hk e.symm
      rw [get?_append_singleton]
      cases hm : CategoryMap.get? m k <;> simp [hk1]

/-- C15 (witness): on the map with `b` at id 0, the new key `a` gets the id 1 and `b`
keeps the id 0; on the map with `a` at id 0 and `b` at id 1 the key `a` gets the id 0. -/
theorem newNode_category_assignment_witness :
    (∃ m1, newNode srcAll "a/x.md" [("b", 0)] =
          (some { extractContent docNoText with Id := "a/x.md", Category := 1 }, m1) ∧
        CategoryMap.get? m1 (Dir "a/x.md") = some 1 ∧
        m1.length = 2 ∧
        (∀ e ∈ [(("b", 0) : String × Int)], e ∈ m1) ∧
        ∀ k, k ≠ Dir "a/x.md" → CategoryMap.get? m1 k = CategoryMap.get? [("b", 0)] k) ∧
    newNode srcAll "a/x.md" mapAB =
      (some { extractContent docNoText with Id := "a/x.md", Category := 0 }, mapAB) :=
  ⟨(newNode_category_assignment srcAll "a/x.md" docNoText [("b", 0)] rfl).2 (by decide),
    (newNode_category_assignment srcAll "a/x.md" docNoText mapAB rfl).1 0 (by decide)⟩

theorem sortSlice_pairwise_lt (l : List Category) (hnd : (l.map Category.Id).Nodup) :
    (sortSlice categoryLess l).Pairwise (fun a b => a.Id < b.Id) := by
  haveI : IsTotal Category (fun a b => categoryLess b a = false) :=
    ⟨fun a b => by simp only [categoryLess_false_iff]; exact le_total _ _⟩
  haveI : IsTrans Category (fun a b => categoryLess b a = false) :=
    ⟨fun a b c => by simp only [categoryLess_false_iff]; exact le_trans⟩
  have hle : (sortSlice categoryLess l).Pairwise (fun a b => categoryLess b a = false) :=
    List.sorted_insertionSort (fun a b => categoryLess b a = false) l
  have hperm : (sortSlice categoryLess l).Perm l := List.perm_insertionSort _ l
  have hne : (sortSlice categoryLess l).Pairwise (fun a b => a.Id ≠ b.Id) := by
    have h2 : ((sortSlice categoryLess l).map Category.Id).Nodup :=
      (hperm.map Category.Id).nodup_iff.mpr hnd
    rw [List.Nodup, List.pairwise_map] at h2
    exact h2
  exact (hle.and hne).imp
    (fun h => lt_of_le_of_ne ((categoryLess_false_iff _ _).mp h.1) h.2)

theorem sortCategories_eq_sortSlice (order : MapOrder) (m : CategoryMap) :
    sortCategories order m = sortSlice categoryLess ((order.enum m).map toCategory) := by
  simp only [sortCategories]
  rw [foldl_append_singleton (fun e : String × Int => ({ Name := e.1, Id := e.2 } : Category))]
  rfl

/-- C16: on a category map whose ids are pairwise distinct, `sortCategories` gives the
same list for every enumeration order of the entries; the graph of `parseNotes` and its
serialized fragments are therefore the same in every run on the same list of
documents. -/
theorem sortCategories_order_independent (o1 o2 : MapOrder) (m : CategoryMap)
    (hids : (m.map Prod.snd).Nodup) (src : DocSource) (paths : List String) :
    sortCategories o1 m = sortCategories o2 m ∧
    parseNotes o1 src paths = parseNotes o2 src paths ∧
    (parseNotes o1 src paths).toGraphStrings = (parseNotes o2 src paths).toGraphStrings := by
  refine ⟨?_, ?_, ?_⟩
  · rw [sortCategories_eq_sortSlice, sortCategories_eq_sortSlice]
    have hp : ((o1.enum m).map toCategory).Perm
        (sortSlice categoryLess ((o2.enum m).map toCategory)) :=
      (((o1.perm m).trans (o2.perm m).symm).map toCategory).trans
        (List.perm_insertionSort _ _).symm
    apply sortSlice_eq_of_perm_sorted _ _ hp
    apply sortSlice_pairwise_lt
    have hmap : ((o2.enum m).map toCategory).map Category.Id = (o2.enum m).map Prod.snd := by
      rw [List.map_map]; rfl
    rw [hmap]
    exact ((o2.perm m).map Prod.snd).nodup_iff.mpr hids
  · rw [parseNotes_eq_graphOf, parseNotes_eq_graphOf]
  · rw [parseNotes_eq_graphOf, parseNotes_eq_graphOf]

/-- C16 (witness): the map with `a` at id 0 and `b` at id 1 gives the same category list
whether its entries are enumerated in insertion order or in reverse. -/
theorem sortCategories_order_independent_witness :
    sortCategories insertionOrder mapAB = sortCategories reverseOrder mapAB ∧
    parseNotes insertionOrder srcScenario ["a/one.md", "a/two.md"] =
      parseNotes reverseOrder srcScenario ["a/one.md", "a/two.md"] ∧
    (parseNotes insertionOrder srcScenario ["a/one.md", "a/two.md"]).toGraphStrings =
      (parseNotes reverseOrder srcScenario ["a/one.md", "a/two.md"]).toGraphStrings :=
  sortCategories_order_independent insertionOrder reverseOrder mapAB (by decide)
    srcScenario ["a/one.md", "a/two.md"]

theorem filterMap_nodeOf_ids (src : DocSource) (keys paths : List String) :
    (paths.filterMap (nodeOf src keys)).map Node.Id =
      paths.filter (fun p => (src p).isSome) := by
  induction paths with
  | nil => rfl
  | cons p ps ih =>
    cases hs : src p with
    | none => simp [List.filterMap_cons, List.filter_cons, nodeOf, hs, ih]
    | some doc => simp [List.filterMap_cons, List.filter_cons, nodeOf, hs, ih]

/-- C17: the ids of the nodes of the graph are the paths that were read, in input order;
when no path occurs twice in the input, no two nodes have the same id. -/
theorem parseNotes_node_ids (order : MapOrder) (src : DocSource) (paths : List String) :
    (parseNotes order src paths).Nodes.map Node.Id =
      paths.filter (fun p => (src p).isSome) ∧
    (paths.Nodup → ((parseNotes order src paths).Nodes.map Node.Id).Nodup) := by
  have h : (parseNotes order src paths).Nodes.map Node.Id =
      paths.filter (fun p => (src p).isSome) := by
    rw [parseNotes_eq_graphOf]
    exact filterMap_nodeOf_ids src _ paths
  exact ⟨h, fun hnd => by rw [h]; exact hnd.filter _⟩

/-- C17 (witness): of the three paths `a/one.md`, `zz/missing.md`, `a/two.md` the second
cannot be read; the node ids are the two others, in order and distinct. -/
theorem parseNotes_node_ids_witness :
    (parseNotes insertionOrder srcScenario ["a/one.md", "zz/missing.md", "a/two.md"]).Nodes.map
        Node.Id = ["a/one.md", "a/two.md"] ∧
    ((parseNotes insertionOrder srcScenario
      ["a/one.md", "zz/missing.md", "a/two.md"]).Nodes.map Node.Id).Nodup :=
  ⟨by decide,
    (parseNotes_node_ids insertionOrder srcScenario
      ["a/one.md", "zz/missing.md", "a/two.md"]).2 (by decide)⟩

/-- C19: every category of the graph is the category of a node of the graph, the node
of a document of that directory; there are at most as many categories as nodes. -/
theorem parseNotes_category_nonempty (order : MapOrder) (src : DocSource)
    (paths : List String) :
    (∀ c ∈ (parseNotes order src paths).Categories,
      ∃ node ∈ (parseNotes order src paths).Nodes,
        node.Category = c.Id ∧ Dir node.Id = c.Name) ∧
    (parseNotes order src paths).Categories.length ≤
      (parseNotes order src paths).Nodes.length := by
  have hlen : (paths.filterMap (nodeOf src (firstSeen (keysOf src paths)))).length =
      (paths.filter (fun p => (src p).isSome)).length := by
    rw [← filterMap_nodeOf_ids src (firstSeen (keysOf src paths)) paths, List.length_map]
  rw [parseNotes_eq_graphOf]
  simp only [graphOf]
  constructor
  · intro c hc
    obtain ⟨e, he, rfl⟩ := List.mem_map.mp hc
    obtain ⟨h1, h2⟩ := mem_idxMapFrom 0 _ (firstSeen_nodup _) e he
    have hk : e.1 ∈ keysOf src paths := (mem_firstSeen _ _).mp h1
    obtain ⟨p, hp, hpe⟩ := List.mem_map.mp hk
    obtain ⟨hp1, hp2⟩ := List.mem_filter.mp hp
    obtain ⟨doc, hdoc⟩ := Option.isSome_iff_exists.mp hp2
    refine ⟨{ extractContent doc with
      Id := p, Category := (((firstSeen (keysOf src paths)).indexOf (Dir p) : Nat) : Int) },
      ?_, ?_, hpe⟩
    · exact List.mem_filterMap.mpr ⟨p, hp1, by simp [nodeOf, hdoc]⟩
    · simp only [toCategory, h2, Nat.zero_add, hpe]
  · rw [hlen, List.length_map, idxMapFrom_length, firstSeen_length]
    calc (keysOf src paths).toFinset.card ≤ (keysOf src paths).length :=
          List.toFinset_card_le _
      _ = (paths.filter (fun p => (src p).isSome)).length := by simp [keysOf]

/-- C19 (witness): in the end-to-end scenario the single category `a` is the category of
the node of `a/one.md`. -/
theorem parseNotes_category_nonempty_witness :
    (∃ node ∈ (parseNotes insertionOrder srcScenario ["a/one.md", "a/two.md"]).Nodes,
      node.Category = 0 ∧ Dir node.Id = "a") ∧
    (parseNotes insertionOrder srcScenario ["a/one.md", "a/two.md"]).Categories.length ≤
      (parseNotes insertionOrder srcScenario ["a/one.md", "a/two.md"]).Nodes.length :=
  ⟨(parseNotes_category_nonempty insertionOrder srcScenario ["a/one.md", "a/two.md"]).1
      { Name := "a", Id := 0 } (by decide),
    (parseNotes_category_nonempty insertionOrder srcScenario ["a/one.md", "a/two.md"]).2⟩

end NoteGraph
